import Mathlib

/-!
Verification of the knawledger ingestion core against its specification.

The development shallowly embeds `src/document.rs` (front-matter parser,
reading-time estimator, H1 title extractor, file batcher `process_files`,
directory walker `process_directory`) together with a model of the catalog
gateway (`db.rs` is not part of the sources; its operations are modelled
from the specification, §4.2).

Strings handed to the parser are modelled as `List Char` together with the
UTF-8 byte width of every character, so that Rust's byte-indexed slicing
(`&s[a..b]`, which panics when an index is out of range, `a > b`, or an
index falls inside a multi-byte character) and byte-indexed `str::find`
are represented faithfully.  OS strings (file names), which need not be
valid UTF-8, are modelled as raw byte lists.
-/

namespace Knawledger

/-- Strings as character lists (Rust `str` contents). -/
abbrev Str := List Char

/-- Character list of a Lean string literal. -/
def chars (s : String) : Str := s.data

/-- UTF-8 byte width of a character (1 to 4 bytes; Lean `Char` excludes
surrogates exactly as Rust `char` does). -/
def utf8Width (c : Char) : Nat :=
  if c.toNat < 0x80 then 1
  else if c.toNat < 0x800 then 2
  else if c.toNat < 0x10000 then 3
  else 4

/-- Total UTF-8 byte length of a string. -/
def byteLen : Str → Nat
  | [] => 0
  | c :: s => utf8Width c + byteLen s

/-- Split a string at a byte index: `some (pre, post)` when the index lies
on a character boundary and within the string, `none` otherwise (Rust
slicing panics in the `none` cases). -/
def splitAtBytes : Str → Nat → Option (Str × Str)
  | s, 0 => some ([], s)
  | [], _ + 1 => none
  | c :: s, n + 1 =>
    if utf8Width c ≤ n + 1 then
      match splitAtBytes s (n + 1 - utf8Width c) with
      | some (a, b) => some (c :: a, b)
      | none => none
    else none

/-- Rust `&s[i..]`: the suffix from byte index `i`, `none` on panic. -/
def sliceFrom (s : Str) (i : Nat) : Option Str :=
  (splitAtBytes s i).map Prod.snd

/-- Rust `&s[a..b]`: `none` when `a > b`, `b` exceeds the byte length, or
either index falls inside a multi-byte character (all panic in Rust). -/
def sliceRange (s : Str) (a b : Nat) : Option Str :=
  if a ≤ b then
    match splitAtBytes s a with
    | none => none
    | some (_, rest) =>
      match splitAtBytes rest (b - a) with
      | some (mid, _) => some mid
      | none => none
  else none

/-- Rust `str::find` for the pattern `"---"`: byte index of the first
occurrence.  The pattern is pure ASCII, and the byte `0x2D` never occurs
inside a multi-byte UTF-8 character, so every byte-level match is
character-aligned and a character-level search returns the same index. -/
def findBytes (pat : Str) : Str → Option Nat
  | [] => if pat.isPrefixOf ([] : Str) then some 0 else none
  | c :: s =>
    if pat.isPrefixOf (c :: s) then some 0
    else (findBytes pat s).map (utf8Width c + ·)

/-- The `---` front-matter fence. -/
def fence : Str := ['-', '-', '-']

/-- Unicode `White_Space` set, the characters trimmed by Rust `str::trim`. -/
def isRustWhitespace (c : Char) : Bool :=
  c.toNat = 0x09 ∨ c.toNat = 0x0A ∨ c.toNat = 0x0B ∨ c.toNat = 0x0C ∨
  c.toNat = 0x0D ∨ c.toNat = 0x20 ∨ c.toNat = 0x85 ∨ c.toNat = 0xA0 ∨
  c.toNat = 0x1680 ∨ (0x2000 ≤ c.toNat ∧ c.toNat ≤ 0x200A) ∨
  c.toNat = 0x2028 ∨ c.toNat = 0x2029 ∨ c.toNat = 0x202F ∨
  c.toNat = 0x205F ∨ c.toNat = 0x3000

/-- Rust `str::trim`. -/
def trim (s : Str) : Str :=
  ((s.dropWhile isRustWhitespace).reverse.dropWhile isRustWhitespace).reverse

/-- Split on every occurrence of a character (Rust `str::split(c)`;
`"".split(c)` yields one empty piece). -/
def splitChar (sep : Char) : Str → List Str
  | [] => [[]]
  | c :: s =>
    match splitChar sep s with
    | [] => [[]]
    | p :: ps => if c = sep then [] :: p :: ps else (c :: p) :: ps

/-- Strip one trailing carriage return (Rust `lines` behaviour per line). -/
def stripCR (s : Str) : Str :=
  match s.getLast? with
  | some '\r' => s.dropLast
  | _ => s

/-- Rust `str::lines`: split on `'\n'`, drop a final empty piece produced by
a trailing newline, strip one trailing `'\r'` from each line. -/
def linesOf (s : Str) : List Str :=
  if s = [] then []
  else
    let parts := splitChar '\n' s
    let parts := if parts.getLast? = some [] then parts.dropLast else parts
    parts.map stripCR

/-- Rust `str::split_once(c)`: parts before and after the first occurrence. -/
def splitOnceChar (sep : Char) : Str → Option (Str × Str)
  | [] => none
  | c :: s =>
    if c = sep then some ([], s)
    else (splitOnceChar sep s).map (fun p => (c :: p.1, p.2))

/-- `find_title_from_h1` (document.rs): first line containing `'#'` after
trimming; returns everything after the first `'#'`, trimmed. -/
def find_title_from_h1 (content : Str) : Option Str :=
  (linesOf content).findSome? fun line =>
    match splitOnceChar '#' (trim line) with
    | none => none
    | some p => some (trim p.2)

/-- Error kinds of `KnawledgeError` relevant to the core (error.rs); the
`duplicate` case stands for the catalog rejecting a uniqueness violation
(spec §4.2, gateway errors surface as `Sqlx`). -/
inductive KErr where
  | io
  | yaml
  | invalidDirectory
  | duplicate
  deriving DecidableEq, Repr

/-- Outcome of running a piece of Rust code: a panic, a propagated
`Err`, exhaustion of the loop-fuel bound (models executions of the
batcher's `while` loop that never reach `files_remaining == 0`), or a
value. -/
inductive PRes (α : Type) where
  | panicked
  | fuelOut
  | error (e : KErr)
  | ok (a : α)
  deriving DecidableEq, Repr

deriving instance DecidableEq for Except

/-- Sequencing that propagates panics, fuel exhaustion and errors. -/
def PRes.bind {α β : Type} : PRes α → (α → PRes β) → PRes β
  | .panicked, _ => .panicked
  | .fuelOut, _ => .fuelOut
  | .error e, _ => .error e
  | .ok a, f => f a

/-- The metadata record (document.rs `DocumentMeta`): user identifier
(YAML key `id`), title, reading time, tags. -/
structure DocumentMeta where
  custom_id : Option Str := none
  title : Option Str := none
  reading_time : Option Int := none
  tags : Option (List Str) := none
  deriving DecidableEq, Repr

/-! ### Binary32 arithmetic

`calculate_reading_time` computes `((words / 200) as f32 * 0.60) as i32`.
The model below implements IEEE-754 binary32 round-to-nearest-even with a
24-bit significand and unbounded exponent over `ℚ`; on every value this
program can produce (magnitudes between `2^-2` and `2^57`) the unbounded
exponent model agrees exactly with `f32`, since no overflow or subnormal
can occur there. -/

/-- Fuel-driven floor of the base-2 logarithm on `ℕ` (fuel `≥ n` suffices). -/
def log2fuel : Nat → Nat → Nat
  | 0, _ => 0
  | f + 1, n => if 2 ≤ n then log2fuel f (n / 2) + 1 else 0

/-- Floor of the base-2 logarithm of a positive natural. -/
def natLog2 (n : Nat) : Nat := log2fuel n n

/-- Fuel-driven least `k` with `y ≤ 2 ^ k`, for `y > 1` (fuel `≥ ⌈y⌉`). -/
def clog2fuel : Nat → ℚ → Nat
  | 0, _ => 0
  | f + 1, y => if y ≤ 1 then 0 else clog2fuel f (y / 2) + 1

/-- Binary exponent of a positive rational: the `z` with `2^z ≤ x < 2^(z+1)`. -/
def qexp (x : ℚ) : Int :=
  if 1 ≤ x then (natLog2 ⌊x⌋.toNat : Int)
  else -(clog2fuel ⌈x⁻¹⌉.toNat x⁻¹ : Int)

/-- Round half to even on `ℚ`, to an integer. -/
def rhe (y : ℚ) : Int :=
  if y - ⌊y⌋ < 1 / 2 then ⌊y⌋
  else if y - ⌊y⌋ > 1 / 2 then ⌊y⌋ + 1
  else if Even ⌊y⌋ then ⌊y⌋ else ⌊y⌋ + 1

/-- Round a nonnegative rational to the nearest binary32 value
(round-to-nearest-even, 24-bit significand, unbounded exponent). -/
def fl32 (x : ℚ) : ℚ :=
  if x ≤ 0 then 0
  else (rhe (x / 2 ^ (qexp x - 23)) : ℚ) * 2 ^ (qexp x - 23)

/-- The `f32` literal `0.60` of the source. -/
def lit060 : ℚ := fl32 (6 / 10)

/-- Rust `as i32` applied to a nonnegative finite `f32` value: truncation
toward zero, saturating at `i32::MAX`. -/
def i32sat (x : ℚ) : Int := min ⌊x⌋ (2 ^ 31 - 1)

/-- `calculate_reading_time` (document.rs):
`((content.split(' ').len() / 200) as f32 * 0.60) as i32`. -/
def calculate_reading_time (content : Str) : Int :=
  let words : Nat := (splitChar ' ' content).length
  i32sat (fl32 (fl32 ((words / 200 : Nat) : ℚ) * lit060))

/-- A YAML deserializer for `DocumentMeta` (serde_yaml is external to the
repository, so `read_from_str` is parameterised over it). -/
abbrev Yaml := Str → Except KErr DocumentMeta

/-- `DocumentMeta::read_from_str` (document.rs lines 94-130), byte-faithful:
`end_i` is the byte index of the next `---` inside `&content[3..]`; the
meta slice is `&content[3..end_i + 2]` and the remainder
`&content[end_i + 6..]`, exactly as in the source (including the slices
that panic). -/
def read_from_str (yaml : Yaml) (content : Str) : PRes (DocumentMeta × Str) :=
  let data : DocumentMeta := { title := find_title_from_h1 content }
  if ¬ fence.isPrefixOf content then .ok (data, content)
  else if byteLen content < 4 then .ok (data, content)
  else
    match sliceFrom content 3 with
    | none => .panicked
    | some tail =>
      match findBytes fence tail with
      | none => .ok (data, tail)
      | some end_i =>
        match sliceRange content 3 (end_i + 2) with
        | none => .panicked
        | some meta_str =>
          if meta_str = [] then
            match sliceFrom content (end_i + 6) with
            | none => .panicked
            | some rest => .ok (data, rest)
          else
            match yaml meta_str with
            | .error e => .error e
            | .ok d =>
              match sliceFrom content (end_i + 6) with
              | none => .panicked
              | some rest =>
                let d := { d with reading_time := some (calculate_reading_time rest) }
                let d := if d.title = none then { d with title := find_title_from_h1 rest } else d
                .ok (d, rest)

/-! ### OS strings, paths, documents -/

/-- An OS string (file-name component): a raw byte sequence, not
necessarily valid UTF-8. -/
abbrev OsStr := List Nat

/-- A filesystem path, as its list of components.  `Path::display` is
modelled as the identity on paths. -/
abbrev RPath := List OsStr

/-- Strict UTF-8 decoding (`OsStr::to_str`): rejects stray continuation
bytes, overlong forms, surrogates and code points above `0x10FFFF`. -/
def decodeUtf8 : List Nat → Option Str
  | [] => some []
  | b :: rest =>
    if b < 0x80 then (decodeUtf8 rest).map (fun s => Char.ofNat b :: s)
    else if b < 0xC2 then none
    else if b < 0xE0 then
      match rest with
      | b2 :: rest2 =>
        if 0x80 ≤ b2 ∧ b2 < 0xC0 then
          (decodeUtf8 rest2).map (fun s => Char.ofNat ((b - 0xC0) * 0x40 + (b2 - 0x80)) :: s)
        else none
      | [] => none
    else if b < 0xF0 then
      match rest with
      | b2 :: b3 :: rest3 =>
        let cp := (b - 0xE0) * 0x1000 + (b2 - 0x80) * 0x40 + (b3 - 0x80)
        if (0x80 ≤ b2 ∧ b2 < 0xC0) ∧ (0x80 ≤ b3 ∧ b3 < 0xC0) ∧
            0x800 ≤ cp ∧ (cp < 0xD800 ∨ 0xE000 ≤ cp) then
          (decodeUtf8 rest3).map (fun s => Char.ofNat cp :: s)
        else none
      | _ => none
    else if b < 0xF8 then
      match rest with
      | b2 :: b3 :: b4 :: rest4 =>
        let cp := (b - 0xF0) * 0x40000 + (b2 - 0x80) * 0x1000 + (b3 - 0x80) * 0x40 + (b4 - 0x80)
        if (0x80 ≤ b2 ∧ b2 < 0xC0) ∧ (0x80 ≤ b3 ∧ b3 < 0xC0) ∧ (0x80 ≤ b4 ∧ b4 < 0xC0) ∧
            0x10000 ≤ cp ∧ cp < 0x110000 then
          (decodeUtf8 rest4).map (fun s => Char.ofNat cp :: s)
        else none
      | _ => none
    else none

/-- `Path::extension` restricted to a file-name component: the bytes after
the last `0x2E` dot, unless there is no dot or the only text before the
last dot is empty (Rust's hidden-file rule). -/
def extOf (name : OsStr) : Option OsStr :=
  if name.contains 0x2E then
    let after := (name.reverse.takeWhile (fun b => ¬ b = 0x2E)).reverse
    if name.length = after.length + 1 then none else some after
  else none

/-- The sentinel produced by `Document::name` for absent or non-UTF-8
file names. -/
def unknownName : Str := chars "__unknown"

/-- `Document::name` (document.rs lines 46-53): final path segment decoded
as UTF-8, with `__unknown` as fallback at both steps. -/
def documentName (p : RPath) : Str :=
  match p.getLast? with
  | none => unknownName
  | some os => (decodeUtf8 os).getD unknownName

/-- The `Document` database model (document.rs lines 17-25); the source
documents `path` as the canonicalised path. -/
structure Document where
  file_name : Str
  directory : Nat
  path : RPath
  deriving DecidableEq, Repr

/-- A parsed record: `(Document, DocumentMeta)`. -/
abbrev Pair := Document × DocumentMeta

/-- `Path::canonicalize`, a filesystem operation, passed in as a
parameter (it may fail with an I/O error). -/
abbrev Canon := RPath → Except KErr RPath

/-- `DocumentMeta::read_from_file`: read the file at a path and parse it;
passed in as a parameter since it performs filesystem I/O.  Its panic case
reflects the parser's panics (C1). -/
abbrev ReadDoc := RPath → PRes DocumentMeta

/-- `Document::new` (document.rs lines 28-44): read metadata from `path`
and build the record carrying `name` and `path` as given. -/
def docNew (readDoc : ReadDoc) (directory : Nat) (name : Str) (path : RPath) : PRes Pair :=
  (readDoc path).bind fun meta =>
    .ok ({ file_name := name, directory := directory, path := path }, meta)

/-! ### The file batcher `process_files` (document.rs lines 258-356) -/

/-- `FILES_PER_THREAD` (main.rs). -/
def FILES_PER_THREAD : Nat := 128

/-- One pass of the batch-formation `for` loop (document.rs lines 270-288):
slot `i` takes `file_paths[i*128 .. (i+1)*128]`, the first slot whose end
exceeds `files_total` is truncated and breaks; returns the batches together
with the total subtracted from `files_remaining`.  The loop restarts at
`i = 0` every round — there is no offset into the list. -/
def formBatches (paths : List RPath) (filesTotal : Nat) : Nat → Nat → List (List RPath) × Nat
  | 0, _ => ([], 0)
  | slots + 1, i =>
    let start := i * FILES_PER_THREAD
    let stop := (i + 1) * FILES_PER_THREAD
    if filesTotal < stop then
      ([(paths.drop start).take (filesTotal - start)], filesTotal - start)
    else
      let r := formBatches paths filesTotal slots (i + 1)
      ((paths.drop start).take FILES_PER_THREAD :: r.1, FILES_PER_THREAD + r.2)

/-- A worker thread's loop (document.rs lines 307-318): for each path,
canonicalise it, derive the file name from the canonicalised path, and
read the document from `file_path.display()` — the raw path, which is
also what the built `Document` stores. -/
def worker (canon : Canon) (readDoc : ReadDoc) (directory : Nat) : List RPath → PRes (List Pair)
  | [] => .ok []
  | p :: ps =>
    match canon p with
    | .error _ => .error .io
    | .ok cp =>
      (docNew readDoc directory (documentName cp) p).bind fun pair =>
        (worker canon readDoc directory ps).bind fun rest => .ok (pair :: rest)

/-- The single-batch in-line path (document.rs lines 342-352): name from
the raw path, document read from and storing the canonicalised path;
errors propagate to the caller via `?`. -/
def inlineBatch (canon : Canon) (readDoc : ReadDoc) (directory : Nat) :
    List RPath → List Pair → PRes (List Pair)
  | [], acc => .ok acc
  | p :: ps, acc =>
    match canon p with
    | .error _ => .error .io
    | .ok cp =>
      (docNew readDoc directory (documentName p) cp).bind fun pair =>
        inlineBatch canon readDoc directory ps (acc ++ [pair])

/-- One round after batch formation: with more than one batch, spawn one
worker per batch and drain the successful workers' vectors into `files`
in spawn order, logging (and dropping) failed or panicked workers;
otherwise process `batches[0]` in-line — indexing that panics if every
batch was empty. -/
def runRound (canon : Canon) (readDoc : ReadDoc) (directory : Nat)
    (batches : List (List RPath)) (files : List Pair) : PRes (List Pair) :=
  if 1 < batches.length then
    .ok (batches.foldl
      (fun acc b =>
        match worker canon readDoc directory b with
        | .ok v => acc ++ v
        | _ => acc)
      files)
  else
    match batches with
    | [] => .panicked
    | b :: _ => inlineBatch canon readDoc directory b files

/-- Modulus of `usize` arithmetic (the target is 64-bit). -/
def U64 : Nat := 2 ^ 64

/-- Wrapping `usize` subtraction, as `files_remaining -= …` behaves in a
release build when it underflows. -/
def wrapSub (a b : Nat) : Nat := (a + (U64 - b % U64)) % U64

/-- The `while files_remaining > 0` loop of `process_files`.  `fuel`
bounds the number of rounds; `.fuelOut` models executions that exceed it
(in particular the underflowing runs that never reach zero). -/
def processFilesLoop (canon : Canon) (readDoc : ReadDoc) (directory mt : Nat)
    (paths : List RPath) (filesTotal : Nat) :
    Nat → Nat → List Pair → PRes (List Pair)
  | 0, _, _ => .fuelOut
  | fuel + 1, remaining, files =>
    if remaining = 0 then .ok files
    else
      let fb := formBatches paths filesTotal mt 0
      let batches := fb.1.filter (fun b => ¬ b = [])
      match runRound canon readDoc directory batches files with
      | .ok files2 =>
        processFilesLoop canon readDoc directory mt paths filesTotal fuel
          (wrapSub remaining fb.2) files2
      | bad => bad

/-- `process_files` (document.rs lines 258-356), with `MAX_THREADS` as the
parameter `mt`. -/
def process_files (canon : Canon) (readDoc : ReadDoc) (directory mt : Nat)
    (paths : List RPath) (fuel : Nat) : PRes (List Pair) :=
  processFilesLoop canon readDoc directory mt paths paths.length fuel paths.length []

/-! ### The catalog gateway

`db.rs` is not among the sources; the six operations are modelled from
the specification (§4.2).  Identifiers are drawn from a counter; the two
insert operations also bump per-operation counters so that "performs zero
insertions" is part of the state. -/

/-- A persisted directory row.  Modelled from the spec: stable identifier,
name, optional parent, canonical path (timestamps omitted — they are set
by the store and never read by the core). -/
structure DirRow where
  id : Nat
  name : Str
  parent : Option Nat
  path : RPath
  deriving DecidableEq, Repr

/-- A persisted document row.  Modelled from the spec: the directory it
belongs to, file name, path, and the parsed metadata. -/
structure DocRow where
  file_name : Str
  directory : Nat
  path : RPath
  meta : DocumentMeta
  deriving DecidableEq, Repr

/-- The catalog state: directory and document rows, a fresh-identifier
counter, and counts of insert operations performed. -/
structure Db where
  dirs : List DirRow
  docs : List DocRow
  nextId : Nat
  dirInserts : Nat
  docInserts : Nat
  deriving DecidableEq, Repr

/-- The empty catalog. -/
def Db.empty : Db := ⟨[], [], 0, 0, 0⟩

/-- Modelled from the spec: `ensure-child-directory` — lookup by
(name, parent). -/
def Db.getDirByNameAndParent (db : Db) (name : Str) (parentId : Nat) : Option DirRow :=
  db.dirs.find? (fun d => d.name = name ∧ d.parent = some parentId)

/-- Modelled from the spec: `ensure-root-directory` — lookup by name
where the parent is absent. -/
def Db.getRootDirByName (db : Db) (name : Str) : Option DirRow :=
  db.dirs.find? (fun d => d.name = name ∧ d.parent = none)

/-- Modelled from the spec: `insert-directory` — fresh identifier, row
appended. -/
def Db.insertDir (db : Db) (path : RPath) (name : Str) (parent : Option Nat) : DirRow × Db :=
  let row : DirRow := ⟨db.nextId, name, parent, path⟩
  (row, { db with dirs := db.dirs ++ [row], nextId := db.nextId + 1,
                  dirInserts := db.dirInserts + 1 })

/-- Modelled from the spec: `list-documents-in-directory` — the documents
of the directory whose file name is among the candidates. -/
def Db.listDocumentInDir (db : Db) (dirId : Nat) (names : List Str) : List DocRow :=
  db.docs.filter (fun d => d.directory = dirId ∧ d.file_name ∈ names)

/-- Modelled from the spec: `insert-document` — must enforce
(directory, file_name) uniqueness; a violating insert is rejected with a
catalog error. -/
def Db.insertDoc (db : Db) (doc : Document) (meta : DocumentMeta) : Except KErr Db :=
  if db.docs.any (fun d => d.directory = doc.directory ∧ d.file_name = doc.file_name) then
    .error .duplicate
  else
    .ok { db with
          docs := db.docs ++ [⟨doc.file_name, doc.directory, doc.path, meta⟩],
          docInserts := db.docInserts + 1 }

/-! ### The filesystem and the directory walker -/

mutual
/-- A directory on disk: its name component and its entries in
enumeration order. -/
inductive FsTree where
  | node (name : OsStr) (entries : List FsEntry)

/-- A directory entry: a sub-directory or a regular file with its textual
content. -/
inductive FsEntry where
  | dir (t : FsTree)
  | file (name : OsStr) (content : Str)
end

/-- Name component of a directory tree. -/
def FsTree.name : FsTree → OsStr
  | .node n _ => n

/-- Entries of a directory tree. -/
def FsTree.entries : FsTree → List FsEntry
  | .node _ es => es

/-- Name component of an entry. -/
def FsEntry.nameOf : FsEntry → OsStr
  | .dir t => t.name
  | .file n _ => n

/-- Whether `entry.path().is_dir()` holds. -/
def FsEntry.isDir : FsEntry → Bool
  | .dir _ => true
  | .file _ _ => false

/-- Whether an entry name carries exactly the extension `md` (document.rs
lines 199-209: extension present, valid UTF-8, equal to `"md"`). -/
def hasMdExt (name : OsStr) : Bool :=
  match extOf name with
  | none => false
  | some ext =>
    match decodeUtf8 ext with
    | none => false
    | some s => s = chars "md"

/-- The collection loop of `process_directory` (document.rs lines
197-217): paths of the entries with extension `md`, in order, together
with the valid-UTF-8 file names among them. -/
def selectMd (ownPath : RPath) : List FsEntry → List RPath × List Str
  | [] => ([], [])
  | e :: es =>
    let r := selectMd ownPath es
    if hasMdExt e.nameOf then
      match decodeUtf8 e.nameOf with
      | some n => ((ownPath ++ [e.nameOf]) :: r.1, n :: r.2)
      | none => ((ownPath ++ [e.nameOf]) :: r.1, r.2)
    else r

/-- Decoded file name of a path: its final component when that is valid
UTF-8. -/
def pathName (p : RPath) : Option Str :=
  match p.getLast? with
  | none => none
  | some os => decodeUtf8 os

/-- The matching closure of the reconciliation loop (document.rs lines
225-235): `el.iter().last()` decoded must equal the known file name;
paths whose final component is absent or not valid UTF-8 never match. -/
def nameMatches (name : Str) (p : RPath) : Bool :=
  match pathName p with
  | none => false
  | some n => n = name

/-- Position of the first work-list path matching the given file name. -/
def matchPos (name : Str) : List RPath → Option Nat
  | [] => none
  | p :: ps =>
    if nameMatches name p then some 0 else (matchPos name ps).map (· + 1)

/-- `Vec::swap_remove`: replace index `i` with the last element and drop
the last element. -/
def swapRemove (l : List RPath) (i : Nat) : List RPath :=
  (l.set i (l.getLast?.getD [])).dropLast

/-- The reconciliation loop (document.rs lines 224-242): for every known
document, remove the first matching path from the work list. -/
def removeExisting : List DocRow → List RPath → List RPath
  | [], md => md
  | item :: rest, md =>
    match matchPos item.file_name md with
    | some i => removeExisting rest (swapRemove md i)
    | none => removeExisting rest md

/-- Reading a path that lies inside the directory being processed:
`fs::read_to_string` on the first entry whose path matches (an I/O error
for a sub-directory or an absent file), then `read_from_str`, keeping the
metadata. -/
def readEntry (yaml : Yaml) (ownPath : RPath) (entries : List FsEntry) : ReadDoc :=
  fun p =>
    match entries.findSome?
        (fun e => if ownPath ++ [e.nameOf] = p then some e else none) with
    | some (.file _ content) => (read_from_str yaml content).bind fun r => .ok r.1
    | some (.dir _) => .error .io
    | none => .error .io

/-- The sequential insertion loop (document.rs lines 247-249). -/
def insertPairs : List Pair → Db → PRes Db
  | [], db => .ok db
  | (doc, meta) :: rest, db =>
    match db.insertDoc doc meta with
    | .error e => .error e
    | .ok db1 => insertPairs rest db1

/-- The directory-resolution step (document.rs lines 169-185): look the
directory up by (name, parent) — by root name when the parent is absent —
and insert it when missing. -/
def resolveDir (db : Db) (ownPath : RPath) (dirName : Str) (parent : Option Nat) :
    DirRow × Db :=
  match parent with
  | some pid =>
    match db.getDirByNameAndParent dirName pid with
    | some d => (d, db)
    | none => db.insertDir ownPath dirName (some pid)
  | none =>
    match db.getRootDirByName dirName with
    | some d => (d, db)
    | none => db.insertDir ownPath dirName none

mutual
/-- `process_directory` (document.rs lines 143-256) over the filesystem
model: resolve or insert the directory row, recurse into sub-directories
in enumeration order, diff the on-disk `md` set against the catalog,
batch-process the remainder and insert each resulting document.  Paths in
the model are already canonical (`canonicalize` is the identity and
cannot fail); `mt` is `MAX_THREADS`. -/
def process_directory (yaml : Yaml) (mt : Nat) (parentPath : RPath) (t : FsTree)
    (parent : Option Nat) (db : Db) : PRes Db :=
  match t with
  | .node name entries =>
    let ownPath := parentPath ++ [name]
    match decodeUtf8 name with
    | none => .error .invalidDirectory
    | some dirName =>
      let rdb : DirRow × Db := resolveDir db ownPath dirName parent
      (processSubdirs yaml mt ownPath rdb.1.id entries rdb.2).bind fun db1 =>
        let sel := selectMd ownPath entries
        let existing := db1.listDocumentInDir rdb.1.id sel.2
        let mdFiles := removeExisting existing sel.1
        (process_files (fun p => .ok p) (readEntry yaml ownPath entries) rdb.1.id mt
            mdFiles (mdFiles.length + 2)).bind fun pairs =>
          insertPairs pairs db1

/-- The recursion loop over sub-directory entries (document.rs lines
187-191). -/
def processSubdirs (yaml : Yaml) (mt : Nat) (ownPath : RPath) (dirId : Nat) :
    List FsEntry → Db → PRes Db
  | [], db => .ok db
  | .file _ _ :: es, db => processSubdirs yaml mt ownPath dirId es db
  | .dir t :: es, db =>
    (process_directory yaml mt ownPath t (some dirId) db).bind fun db1 =>
      processSubdirs yaml mt ownPath dirId es db1
end

/-! ## Helper lemmas: byte-indexed slicing and searching -/

lemma utf8Width_pos (c : Char) : 1 ≤ utf8Width c := by
  unfold utf8Width
  split
  · omega
  split
  · omega
  split <;> omega

lemma byteLen_append (a b : Str) : byteLen (a ++ b) = byteLen a + byteLen b := by
  induction a with
  | nil => simp [byteLen]
  | cons c a ih => simp [byteLen, ih]; omega

lemma byteLen_pos (a : Str) (h : a ≠ []) : 1 ≤ byteLen a := by
  match a with
  | c :: a => have := utf8Width_pos c; simp [byteLen]; omega

lemma splitAtBytes_append (a b : Str) : splitAtBytes (a ++ b) (byteLen a) = some (a, b) := by
  induction a with
  | nil => simp [byteLen, splitAtBytes]
  | cons c a ih =>
    have hw := utf8Width_pos c
    obtain ⟨m, hm⟩ : ∃ m, utf8Width c + byteLen a = m + 1 :=
      ⟨utf8Width c + byteLen a - 1, by omega⟩
    have hb : byteLen (c :: a) = m + 1 := by simp [byteLen, hm]
    rw [List.cons_append, hb]
    have hle : utf8Width c ≤ m + 1 := by omega
    have hrest : m + 1 - utf8Width c = byteLen a := by omega
    simp [splitAtBytes, hle, hrest, ih]

lemma sliceFrom_append (a b : Str) : sliceFrom (a ++ b) (byteLen a) = some b := by
  simp [sliceFrom, splitAtBytes_append]

lemma sliceRange_eval (pre mid post : Str) :
    sliceRange (pre ++ (mid ++ post)) (byteLen pre) (byteLen pre + byteLen mid) = some mid := by
  have h1 : splitAtBytes (pre ++ (mid ++ post)) (byteLen pre) = some (pre, mid ++ post) :=
    splitAtBytes_append pre (mid ++ post)
  simp [sliceRange, h1, splitAtBytes_append]

lemma fence_isPrefixOf_append (l : Str) : fence.isPrefixOf (fence ++ l) = true := by
  simp [fence, List.isPrefixOf]

lemma fence_prefix_three (c d e : Char) (l : Str) :
    fence.isPrefixOf (c :: d :: e :: l) = true ↔ c = '-' ∧ d = '-' ∧ e = '-' := by
  simp [fence, List.isPrefixOf]
  constructor
  · rintro ⟨h1, h2, h3⟩; exact ⟨h1.symm, h2.symm, h3.symm⟩
  · rintro ⟨h1, h2, h3⟩; exact ⟨h1.symm, h2.symm, h3.symm⟩

lemma findBytes_of_leading (s : Str) (h : fence.isPrefixOf s = true) :
    findBytes fence s = some 0 := by
  match s with
  | [] => simp [fence, List.isPrefixOf] at h
  | c :: s => simp [findBytes, h]

/-- Locating the closing fence: when the bytes before it contain no fence
and do not end in a dash, the first occurrence of `---` in
`pre ++ --- ++ post` starts exactly at byte `byteLen pre`. -/
lemma find_fence_after (pre post : Str) (h1 : findBytes fence pre = none)
    (h2 : pre.getLast? ≠ some '-') :
    findBytes fence (pre ++ fence ++ post) = some (byteLen pre) := by
  induction pre with
  | nil =>
    rw [List.nil_append]
    rw [findBytes_of_leading _ (fence_isPrefixOf_append post)]
    simp [byteLen]
  | cons c pre ih =>
    have hnp : ¬ fence.isPrefixOf (c :: pre ++ fence ++ post) = true := by
      match pre with
      | [] =>
        intro hpf
        have hpf2 : fence.isPrefixOf (c :: '-' :: '-' :: ('-' :: post)) = true := by
          simpa [fence] using hpf
        rcases (fence_prefix_three _ _ _ _).mp hpf2 with ⟨hc, -⟩
        simp [hc] at h2
      | [d] =>
        intro hpf
        simp only [List.cons_append, List.singleton_append] at hpf
        rcases (fence_prefix_three _ _ _ _).mp hpf with ⟨-, hd, -⟩
        simp [List.getLast?] at h2
        exact h2 hd
      | d :: e :: pre2 =>
        intro hpf
        simp only [List.cons_append] at hpf
        rcases (fence_prefix_three _ _ _ _).mp hpf with ⟨hc, hd, he⟩
        have : fence.isPrefixOf (c :: d :: e :: pre2) = true := by
          rw [fence_prefix_three]; exact ⟨hc, hd, he⟩
        simp [findBytes, this] at h1
    have h1t : findBytes fence pre = none := by
      by_cases hp : fence.isPrefixOf (c :: pre) = true
      · simp [findBytes, hp] at h1
      · simp [findBytes, hp] at h1
        exact h1
    have h2t : pre.getLast? ≠ some '-' := by
      match pre with
      | [] => simp
      | d :: pre2 =>
        intro hl
        apply h2
        rw [List.getLast?_cons_cons] at *
        exact hl
    have := ih h1t h2t
    simp only [List.cons_append]
    rw [show findBytes fence (c :: (pre ++ fence ++ post)) =
      if fence.isPrefixOf (c :: (pre ++ fence ++ post)) = true then some 0
      else (findBytes fence (pre ++ fence ++ post)).map (utf8Width c + ·) from rfl]
    rw [if_neg (by simpa using hnp)]
    simp only [List.append_assoc] at this ⊢
    rw [this]
    simp [byteLen]

/-! ## Concrete yaml deserializers used in closed statements -/

/-- A yaml stub returning the default record. -/
def yamlStub : Yaml := fun _ => .ok {}

/-- A yaml stub that always fails. -/
def yamlFail : Yaml := fun _ => .error .yaml

/-- Reading time of a short body: fewer than 200 space-delimited tokens
give estimate 0. -/
lemma calculate_reading_time_small (content : Str)
    (h : (splitChar ' ' content).length < 200) :
    calculate_reading_time content = 0 := by
  show i32sat (fl32 (fl32 (((splitChar ' ' content).length / 200 : Nat) : ℚ) * lit060)) = 0
  rw [Nat.div_eq_of_lt h]
  norm_num [fl32, i32sat]

/-! ## C1 — totality of the front-matter parser -/

/-- C1: the parser is not total — on the input `------` (opening fence
immediately followed by the closing fence) the slice `&content[3..2]`
panics, and on `---é---` the slice `&content[3..4]` falls inside the
multi-byte `é` and panics; both inputs produce a panic rather than a
value of the result type. -/
theorem c1_parser_panics :
    read_from_str yamlFail (chars "------") = .panicked ∧
    read_from_str yamlFail (chars "---é---") = .panicked := by decide

/-! ## C7 — missing closing fence strips the opening fence -/

/-- C7 (amended): for every input that starts with `---`, has at least one
further byte, and contains no occurrence of `---` after the opening
fence, the parser returns metadata in which at most the H1-derived title
is present together with the input minus the opening three-character
fence; the boundary input consisting of exactly `---` is instead returned
with its fence intact (see the counterexample). -/
theorem c7_missing_fence (yaml : Yaml) (rest : Str) (hne : rest ≠ [])
    (hnf : findBytes fence rest = none) :
    read_from_str yaml (fence ++ rest) =
      .ok (⟨none, find_title_from_h1 (fence ++ rest), none, none⟩, rest) := by
  have hpre : fence.isPrefixOf (fence ++ rest) = true := fence_isPrefixOf_append rest
  have hlen : ¬ byteLen (fence ++ rest) < 4 := by
    have h1 := byteLen_pos rest hne
    have h2 : byteLen fence = 3 := by decide
    rw [byteLen_append, h2]
    omega
  have hsl : sliceFrom (fence ++ rest) 3 = some rest := by
    have h := sliceFrom_append fence rest
    rwa [show byteLen fence = 3 by decide] at h
  simp [read_from_str, hpre, hlen, hsl, hnf]

/-- C7 counterexample: on the boundary input `---` the parser returns the
whole input as the body instead of stripping the opening fence (the claim
demands the empty body there). -/
theorem c7_counterexample :
    read_from_str yamlStub (chars "---") = .ok ({}, chars "---") ∧
    (chars "---" : Str) ≠ [] := by decide

/-- C7 witness: the amended theorem at `---x`. -/
theorem c7_witness :
    read_from_str yamlStub (chars "---x") = .ok ({}, chars "x") := by
  have h := c7_missing_fence yamlStub (chars "x") (by decide) (by decide)
  rw [show find_title_from_h1 (fence ++ chars "x") = none by decide] at h
  exact h

/-! ## C4 — empty front-matter -/

/-- C4 (amended): the parser's empty-front-matter branch fires exactly
when the closing fence is found one byte after the opening one (the
extracted slice `&content[3..end_i + 2]` is then empty); it returns
metadata that is all-absent except for the title, which is the H1
extraction over the whole input, together with the suffix after the
closing fence.  Inputs whose fences are literally adjacent panic instead
(see the counterexample). -/
theorem c4_empty_meta (yaml : Yaml) (c : Char) (rest : Str)
    (hc : c ≠ '-') (hw : utf8Width c = 1) :
    read_from_str yaml (fence ++ c :: (fence ++ rest)) =
      .ok (⟨none, find_title_from_h1 (fence ++ c :: (fence ++ rest)), none, none⟩, rest) := by
  have hpre : fence.isPrefixOf (fence ++ c :: (fence ++ rest)) = true :=
    fence_isPrefixOf_append _
  have hlen : ¬ byteLen (fence ++ c :: (fence ++ rest)) < 4 := by
    rw [byteLen_append]
    have h2 : byteLen fence = 3 := by decide
    have h3 := byteLen_pos (c :: (fence ++ rest)) (by simp)
    omega
  have hsl : sliceFrom (fence ++ c :: (fence ++ rest)) 3 = some (c :: (fence ++ rest)) := by
    have h := sliceFrom_append fence (c :: (fence ++ rest))
    rwa [show byteLen fence = 3 by decide] at h
  have hfind : findBytes fence (c :: (fence ++ rest)) = some 1 := by
    have hnp : ¬ fence.isPrefixOf (c :: (fence ++ rest)) = true := by
      intro hpf
      have hpf2 : fence.isPrefixOf (c :: '-' :: '-' :: ('-' :: rest)) = true := by
        simpa [fence] using hpf
      exact hc ((fence_prefix_three _ _ _ _).mp hpf2).1
    rw [show findBytes fence (c :: (fence ++ rest)) =
      if fence.isPrefixOf (c :: (fence ++ rest)) = true then some 0
      else (findBytes fence (fence ++ rest)).map (utf8Width c + ·) from rfl]
    rw [if_neg (by simpa using hnp)]
    rw [findBytes_of_leading _ (fence_isPrefixOf_append rest)]
    simp [hw]
  have hmeta : sliceRange (fence ++ c :: (fence ++ rest)) 3 3 = some [] := by
    have h := sliceRange_eval fence [] (c :: (fence ++ rest))
    simpa [show byteLen fence = 3 by decide, byteLen] using h
  have hbody : sliceFrom (fence ++ c :: (fence ++ rest)) 7 = some rest := by
    have h := sliceFrom_append (fence ++ c :: fence) rest
    have hb : byteLen (fence ++ c :: fence) = 7 := by
      rw [byteLen_append]
      have h2 : byteLen fence = 3 := by decide
      have h4 : byteLen (c :: fence) = utf8Width c + byteLen fence := rfl
      omega
    rw [hb] at h
    simpa [List.append_assoc] using h
  simp [read_from_str, hpre, hlen, hsl, hfind, hmeta, hbody]

/-- C4 counterexample: on `------` — where the substring between the two
fences is empty — the parser panics instead of producing the default
metadata and the body after the closing fence. -/
theorem c4_counterexample :
    read_from_str yamlStub (chars "------") = .panicked ∧
    (PRes.panicked : PRes (DocumentMeta × Str)) ≠ .ok ({}, []) := by decide

/-- C4 witness: the amended theorem at `---x---b`. -/
theorem c4_witness :
    read_from_str yamlFail (chars "---x---b") = .ok ({}, chars "b") := by
  have h := c4_empty_meta yamlFail 'x' (chars "b") (by decide) (by decide)
  rw [show find_title_from_h1 (fence ++ 'x' :: (fence ++ chars "b")) = none by decide] at h
  exact h

/-! ## C3 — front-matter round trip -/

/-- Core of the round-trip behaviour: parsing
`--- \n M \n --- \n B` hands the deserializer `"\n" ++ M` (the byte
before the closing fence is dropped by the `end_i + 2` slice, which here
removes exactly the newline) and returns the body `"\n" ++ B` — the
newline after the closing fence is part of the body. -/
lemma c3_round_trip_aux (yaml : Yaml) (M B : Str) (Mrec : DocumentMeta)
    (hy : yaml ('\n' :: M) = .ok Mrec)
    (hnf : findBytes fence ('\n' :: (M ++ ['\n'])) = none) :
    read_from_str yaml (fence ++ '\n' :: M ++ '\n' :: fence ++ '\n' :: B) =
      .ok ({ Mrec with
             reading_time := some (calculate_reading_time ('\n' :: B)),
             title := if Mrec.title = none then find_title_from_h1 ('\n' :: B)
                      else Mrec.title },
           '\n' :: B) := by
  have hw : utf8Width '\n' = 1 := by decide
  have hf3 : byteLen fence = 3 := by decide
  have hshape : fence ++ '\n' :: M ++ '\n' :: fence ++ '\n' :: B
      = fence ++ (('\n' :: (M ++ ['\n'])) ++ (fence ++ ('\n' :: B))) := by
    simp
  rw [hshape]
  have hpreLen : byteLen ('\n' :: (M ++ ['\n'])) = byteLen M + 2 := by
    simp [byteLen, byteLen_append, hw]
    omega
  have hpre : fence.isPrefixOf
      (fence ++ (('\n' :: (M ++ ['\n'])) ++ (fence ++ ('\n' :: B)))) = true :=
    fence_isPrefixOf_append _
  have hlen : ¬ byteLen (fence ++ (('\n' :: (M ++ ['\n'])) ++ (fence ++ ('\n' :: B)))) < 4 := by
    rw [byteLen_append, byteLen_append, hf3, hpreLen]
    omega
  have hsl : sliceFrom (fence ++ (('\n' :: (M ++ ['\n'])) ++ (fence ++ ('\n' :: B)))) 3 =
      some (('\n' :: (M ++ ['\n'])) ++ (fence ++ ('\n' :: B))) := by
    have h := sliceFrom_append fence (('\n' :: (M ++ ['\n'])) ++ (fence ++ ('\n' :: B)))
    rwa [hf3] at h
  have hlast : ('\n' :: (M ++ ['\n'])).getLast? ≠ some '-' := by
    rw [show ('\n' :: (M ++ ['\n'])) = ('\n' :: M) ++ ['\n'] by simp]
    rw [List.getLast?_concat]
    decide
  have hfind : findBytes fence (('\n' :: (M ++ ['\n'])) ++ (fence ++ ('\n' :: B))) =
      some (byteLen M + 2) := by
    have h := find_fence_after ('\n' :: (M ++ ['\n'])) ('\n' :: B) hnf hlast
    rw [hpreLen] at h
    rw [← List.append_assoc]
    exact h
  have hmeta : sliceRange (fence ++ (('\n' :: (M ++ ['\n'])) ++ (fence ++ ('\n' :: B))))
      3 (byteLen M + 2 + 2) = some ('\n' :: M) := by
    have h := sliceRange_eval fence ('\n' :: M) ('\n' :: (fence ++ ('\n' :: B)))
    rw [hf3, show byteLen ('\n' :: M) = 1 + byteLen M by simp [byteLen, hw]] at h
    rw [show byteLen M + 2 + 2 = 3 + (1 + byteLen M) by omega]
    have hinner : ('\n' :: M) ++ ('\n' :: (fence ++ ('\n' :: B)))
        = ('\n' :: (M ++ ['\n'])) ++ (fence ++ ('\n' :: B)) := by simp
    rwa [hinner] at h
  have hbody : sliceFrom (fence ++ (('\n' :: (M ++ ['\n'])) ++ (fence ++ ('\n' :: B))))
      (byteLen M + 2 + 6) = some ('\n' :: B) := by
    have h := sliceFrom_append (fence ++ (('\n' :: (M ++ ['\n'])) ++ fence)) ('\n' :: B)
    have hbl : byteLen (fence ++ (('\n' :: (M ++ ['\n'])) ++ fence)) = byteLen M + 2 + 6 := by
      rw [byteLen_append, byteLen_append, hf3, hpreLen]
      omega
    rw [hbl] at h
    rwa [show (fence ++ (('\n' :: (M ++ ['\n'])) ++ fence)) ++ ('\n' :: B)
      = fence ++ (('\n' :: (M ++ ['\n'])) ++ (fence ++ ('\n' :: B))) by simp] at h
  simp only [read_from_str, hpre, hlen, hsl, hfind, hmeta, hbody, hy,
    Bool.true_eq_false, not_true_eq_false, if_false, if_neg, ite_false, ite_true]
  by_cases hMt : Mrec.title = none
  · simp [hMt]
  · simp [hMt]

/-- C3 (amended): for metadata `M` whose YAML serialisation contains no
`---` and deserialises to `Mrec`, parsing `---\n M \n---\n B` yields
`Mrec` with `reading_time` replaced by the estimator's output over the
returned body and `title` backfilled from it when absent — but the
returned body is `"\n" ++ B`, the newline after the closing fence
included, not `B` itself (see the counterexample). -/
theorem c3_round_trip (yaml : Yaml) (M B : Str) (Mrec : DocumentMeta)
    (hy : yaml ('\n' :: M) = .ok Mrec)
    (hnf : findBytes fence ('\n' :: (M ++ ['\n'])) = none) :
    read_from_str yaml (fence ++ '\n' :: M ++ '\n' :: fence ++ '\n' :: B) =
      .ok ({ Mrec with
             reading_time := some (calculate_reading_time ('\n' :: B)),
             title := if Mrec.title = none then find_title_from_h1 ('\n' :: B)
                      else Mrec.title },
           '\n' :: B) :=
  c3_round_trip_aux yaml M B Mrec hy hnf

/-- The concrete deserializer for the C3 counterexample: accepts exactly
the string the parser extracts from `---\nid: x\n---\nbody`. -/
def yamlIdX : Yaml := fun s =>
  if s = chars "\nid: x" then .ok { custom_id := some (chars "x") } else .error .yaml

/-- C3 counterexample: parsing `---\nid: x\n---\nbody` returns the body
`"\nbody"`, not the body `B = "body"` demanded by the claim. -/
theorem c3_counterexample :
    read_from_str yamlIdX (chars "---\nid: x\n---\nbody") =
      .ok (⟨some (chars "x"), none, some 0, none⟩, chars "\nbody") ∧
    chars "\nbody" ≠ chars "body" := by
  constructor
  · have h := c3_round_trip_aux yamlIdX (chars "id: x") (chars "body")
      { custom_id := some (chars "x") } (by decide) (by decide)
    rw [calculate_reading_time_small ('\n' :: chars "body") (by decide)] at h
    rw [show find_title_from_h1 ('\n' :: chars "body") = none by decide] at h
    rw [show fence ++ '\n' :: chars "id: x" ++ '\n' :: fence ++ '\n' :: chars "body"
      = chars "---\nid: x\n---\nbody" by decide] at h
    simpa using h
  · decide

/-- The constant deserializer for the C3 witness. -/
def yamlTitleT : Yaml := fun _ => .ok { title := some (chars "T") }

/-- C3 witness: the amended round-trip theorem at `M = "k: v"`,
`B = "z"`. -/
theorem c3_witness :
    read_from_str yamlTitleT (fence ++ '\n' :: chars "k: v" ++ '\n' :: fence ++ '\n' :: chars "z") =
      .ok (⟨none, some (chars "T"), some 0, none⟩, '\n' :: chars "z") := by
  have h := c3_round_trip yamlTitleT (chars "k: v") (chars "z")
    { title := some (chars "T") } rfl (by decide)
  rw [calculate_reading_time_small ('\n' :: chars "z") (by decide)] at h
  simpa using h

/-! ## Batcher lemmas -/

/-- The identity canonicaliser (paths already canonical, no symlinks). -/
def canonId : Canon := fun p => .ok p

/-- A reader that parses every file to the default record. -/
def readStub : ReadDoc := fun _ => .ok {}

/-- `j`-th dummy path. -/
def mkPaths (n : Nat) : List RPath := (List.range n).map (fun j => [[j]])

/-- The pair built for a path when canonicalisation is the identity. -/
def pairOf (metaF : RPath → DocumentMeta) (dir : Nat) (p : RPath) : Pair :=
  ({ file_name := documentName p, directory := dir, path := p }, metaF p)

lemma worker_map (canon : Canon) (readDoc : ReadDoc) (dir : Nat)
    (metaF : RPath → DocumentMeta) (b : List RPath)
    (hc : ∀ p ∈ b, canon p = .ok p)
    (hr : ∀ p ∈ b, readDoc p = .ok (metaF p)) :
    worker canon readDoc dir b = .ok (b.map (pairOf metaF dir)) := by
  induction b with
  | nil => simp [worker]
  | cons p ps ih =>
    have h1 := hc p (List.mem_cons_self p ps)
    have h2 := hr p (List.mem_cons_self p ps)
    have ih2 := ih (fun q hq => hc q (List.mem_cons_of_mem p hq))
      (fun q hq => hr q (List.mem_cons_of_mem p hq))
    simp [worker, h1, h2, ih2, docNew, PRes.bind, pairOf]

lemma inline_map (canon : Canon) (readDoc : ReadDoc) (dir : Nat)
    (metaF : RPath → DocumentMeta) (b : List RPath) (acc : List Pair)
    (hc : ∀ p ∈ b, canon p = .ok p)
    (hr : ∀ p ∈ b, readDoc p = .ok (metaF p)) :
    inlineBatch canon readDoc dir b acc = .ok (acc ++ b.map (pairOf metaF dir)) := by
  induction b generalizing acc with
  | nil => simp [inlineBatch]
  | cons p ps ih =>
    have h1 := hc p (List.mem_cons_self p ps)
    have h2 := hr p (List.mem_cons_self p ps)
    have ih2 := ih (acc ++ [pairOf metaF dir p])
      (fun q hq => hc q (List.mem_cons_of_mem p hq))
      (fun q hq => hr q (List.mem_cons_of_mem p hq))
    simp [inlineBatch, h1, h2, docNew, PRes.bind, pairOf] at ih2 ⊢
    rw [ih2]

lemma fold_workers (canon : Canon) (readDoc : ReadDoc) (dir : Nat)
    (metaF : RPath → DocumentMeta) (bs : List (List RPath)) (acc : List Pair)
    (hc : ∀ p ∈ bs.join, canon p = .ok p)
    (hr : ∀ p ∈ bs.join, readDoc p = .ok (metaF p)) :
    bs.foldl
      (fun acc b =>
        match worker canon readDoc dir b with
        | .ok v => acc ++ v
        | _ => acc)
      acc = acc ++ bs.join.map (pairOf metaF dir) := by
  induction bs generalizing acc with
  | nil => simp
  | cons b bs ih =>
    have hw := worker_map canon readDoc dir metaF b
      (fun q hq => hc q (by simp [hq])) (fun q hq => hr q (by simp [hq]))
    have ih2 := ih (acc ++ b.map (pairOf metaF dir))
      (fun q hq => hc q (by simp; right; simpa using hq))
      (fun q hq => hr q (by simp; right; simpa using hq))
    simp only [List.foldl_cons, hw]
    rw [ih2]
    simp

/-- Batch formation when the whole list fits into one round (at most
`slots` slices remain from offset `i`): the subtraction equals what is
left and the non-empty batches concatenate to the remainder of the
list. -/
lemma formBatches_small (paths : List RPath) (slots i : Nat)
    (hlo : i * FILES_PER_THREAD ≤ paths.length)
    (hhi : paths.length ≤ (i + slots) * FILES_PER_THREAD) :
    (formBatches paths paths.length slots i).2 = paths.length - i * FILES_PER_THREAD ∧
    ((formBatches paths paths.length slots i).1.filter (fun b => ¬ b = [])).join =
      paths.drop (i * FILES_PER_THREAD) := by
  induction slots generalizing i with
  | zero =>
    have : paths.length = i * FILES_PER_THREAD := by
      simp at hhi
      omega
    refine ⟨by simp [formBatches, this], ?_⟩
    simp [formBatches, List.drop_eq_nil_of_le (le_of_eq this)]
  | succ slots ih =>
    by_cases hbr : paths.length < (i + 1) * FILES_PER_THREAD
    · have hlen : (paths.drop (i * FILES_PER_THREAD)).length =
          paths.length - i * FILES_PER_THREAD := by simp
      have htake : (paths.drop (i * FILES_PER_THREAD)).take
          (paths.length - i * FILES_PER_THREAD) = paths.drop (i * FILES_PER_THREAD) := by
        rw [← hlen]
        exact List.take_length _
      constructor
      · simp [formBatches, hbr]
      · simp only [formBatches, if_pos hbr, htake]
        by_cases hemp : paths.drop (i * FILES_PER_THREAD) = []
        · simp [hemp]
        · simp [hemp]
    · have hlo2 : (i + 1) * FILES_PER_THREAD ≤ paths.length := le_of_not_lt hbr
      have hhi2 : paths.length ≤ (i + 1 + slots) * FILES_PER_THREAD := by
        have : i + 1 + slots = i + (slots + 1) := by omega
        rw [this]
        exact hhi
      obtain ⟨ihsub, ihjoin⟩ := ih (i + 1) hlo2 hhi2
      have hfull : (paths.drop (i * FILES_PER_THREAD)).take FILES_PER_THREAD ≠ [] := by
        have hfp : 0 < FILES_PER_THREAD := by decide
        have : i * FILES_PER_THREAD < paths.length := by
          have : (i + 1) * FILES_PER_THREAD = i * FILES_PER_THREAD + FILES_PER_THREAD := by ring
          omega
        simp [List.take_eq_nil_iff, List.drop_eq_nil_iff]
        omega
      constructor
      · simp only [formBatches, if_neg hbr]
        have : (i + 1) * FILES_PER_THREAD = i * FILES_PER_THREAD + FILES_PER_THREAD := by ring
        simp only [ihsub]
        omega
      · simp only [formBatches, if_neg hbr, List.filter_cons]
        rw [if_pos (by simpa using hfull)]
        simp only [List.join_cons, ihjoin]
        rw [show (i + 1) * FILES_PER_THREAD = i * FILES_PER_THREAD + FILES_PER_THREAD by ring]
        rw [← List.drop_drop]
        exact List.take_append_drop _ _

lemma wrapSub_self (a : Nat) : wrapSub a a = 0 := by
  have hU : 0 < U64 := by decide
  have hdm := Nat.div_add_mod a U64
  have hlt : a % U64 < U64 := Nat.mod_lt _ hU
  have h1 : a + (U64 - a % U64) = U64 * (a / U64) + U64 := by omega
  unfold wrapSub
  rw [h1, show U64 * (a / U64) + U64 = U64 * (a / U64 + 1) by ring, Nat.mul_mod_right]

/-! ## C5 — the batcher processes each path exactly once -/

/-- Single-round exactness of the batcher: a list that fits into one
round is processed exactly once, in input order.  Shared by the C5
analysis and the idempotence development. -/
lemma pf_small_ok (canon : Canon) (readDoc : ReadDoc) (dir mt : Nat)
    (paths : List RPath) (metaF : RPath → DocumentMeta) (fuel : Nat)
    (hlen : paths.length ≤ mt * FILES_PER_THREAD) (hfuel : 2 ≤ fuel)
    (hcanon : ∀ p ∈ paths, canon p = .ok p)
    (hread : ∀ p ∈ paths, readDoc p = .ok (metaF p)) :
    process_files canon readDoc dir mt paths fuel =
      .ok (paths.map (pairOf metaF dir)) := by
  obtain ⟨f, rfl⟩ : ∃ f, fuel = f + 2 := ⟨fuel - 2, by omega⟩
  unfold process_files
  by_cases hnil : paths.length = 0
  · rw [List.length_eq_zero] at hnil
    subst hnil
    simp [processFilesLoop]
  · have hFB := formBatches_small paths mt 0 (by simp) (by simpa using hlen)
    simp only [Nat.zero_mul, Nat.sub_zero, List.drop_zero] at hFB
    obtain ⟨hsub, hjoin⟩ := hFB
    show processFilesLoop canon readDoc dir mt paths paths.length (f + 1 + 1)
      paths.length [] = _
    rw [processFilesLoop]
    rw [if_neg hnil]
    have hround : ∀ bs : List (List RPath), bs.join = paths →
        runRound canon readDoc dir bs [] = .ok (paths.map (pairOf metaF dir)) := by
      intro bs hjoin
      unfold runRound
      by_cases hlb : 1 < bs.length
      · rw [if_pos hlb]
        rw [fold_workers canon readDoc dir metaF bs []
          (fun q hq => hcanon q (by rw [← hjoin]; exact hq))
          (fun q hq => hread q (by rw [← hjoin]; exact hq))]
        rw [hjoin]
        simp
      · rw [if_neg hlb]
        match bs, hjoin, hlb with
        | [], hjoin, _ =>
          simp at hjoin
          exact absurd hjoin.symm (by simpa using hnil)
        | [b], hjoin, _ =>
          simp at hjoin
          subst hjoin
          show inlineBatch canon readDoc dir b [] = _
          rw [inline_map canon readDoc dir metaF b [] hcanon hread]
          simp
        | b :: b2 :: bs2, hjoin, hlb =>
          exact absurd (by simp) hlb
    have hround2 := hround ((formBatches paths paths.length mt 0).1.filter
      (fun b => ¬ b = [])) hjoin
    simp only [hround2]
    rw [hsub, wrapSub_self]
    rw [processFilesLoop]
    simp

/-- C5 (amended): when the input list fits into a single round
(`length ≤ MAX_THREADS * FILES_PER_THREAD`), the loop terminates after
one round and — with canonicalisation the identity on the inputs and
every read succeeding — appends exactly one `(Document, metadata)` pair
per input path, in input order (so the batches are contiguous, pairwise
disjoint and cover the list exactly).  Longer lists are re-processed
from offset zero on every round instead (see the counterexample). -/
theorem c5_batcher_exactly_once (canon : Canon) (readDoc : ReadDoc) (dir mt : Nat)
    (paths : List RPath) (metaF : RPath → DocumentMeta) (fuel : Nat)
    (hmt : 1 ≤ mt) (hlen : paths.length ≤ mt * FILES_PER_THREAD) (hfuel : 2 ≤ fuel)
    (hcanon : ∀ p ∈ paths, canon p = .ok p)
    (hread : ∀ p ∈ paths, readDoc p = .ok (metaF p)) :
    process_files canon readDoc dir mt paths fuel =
      .ok (paths.map (pairOf metaF dir)) :=
  pf_small_ok canon readDoc dir mt paths metaF fuel hlen hfuel hcanon hread

set_option maxRecDepth 100000 in
set_option maxHeartbeats 2000000 in
/-- C5 counterexample: with one worker thread and 256 input paths, the
loop terminates after two rounds but — the offset never advancing — the
first 128 paths are batched and processed in both rounds, so the output
holds each of them twice and the last 128 paths never. -/
theorem c5_counterexample :
    process_files canonId readStub 7 1 (mkPaths 256) 10 =
      .ok ((mkPaths 128 ++ mkPaths 128).map (pairOf (fun _ => {}) 7)) ∧
    mkPaths 128 ++ mkPaths 128 ≠ mkPaths 256 ∧
    (mkPaths 128 ++ mkPaths 128).count [[0]] = 2 := by decide

/-- C5 witness: 300 paths on a 4-thread host produce exactly one pair per
path (the spec's parallel-batch scenario), via the amended theorem. -/
theorem c5_witness :
    process_files canonId readStub 7 4 (mkPaths 300) 2 =
      .ok ((mkPaths 300).map (pairOf (fun _ => {}) 7)) ∧
    ((mkPaths 300).map (pairOf (fun _ => {}) 7)).length = 300 :=
  ⟨c5_batcher_exactly_once canonId readStub 7 4 (mkPaths 300) (fun _ => {}) 2
    (by norm_num) (by simp [mkPaths, FILES_PER_THREAD]) (by norm_num)
    (fun p _ => rfl) (fun p _ => rfl), by simp [mkPaths]⟩

/-! ## C6 — canonical stored paths -/

/-- A canonicaliser whose output visibly differs from its input. -/
def canonMark : Canon := fun p => .ok ([99] :: p)

/-- First stored path of a batcher result. -/
def firstStoredPath (r : PRes (List Pair)) : Option RPath :=
  match r with
  | .ok l => l.head?.map (fun pr => pr.1.path)
  | _ => none

set_option maxRecDepth 100000 in
set_option maxHeartbeats 2000000 in
/-- C6: in the multi-batch worker path the stored `path` field is
`file_path.display()` — the raw input path — not its canonicalisation:
with 129 paths and two worker threads the first stored path is the raw
`[[0]]` even though the canonicaliser maps it to `[[99], [0]]`.  (The
single-batch in-line path does store the canonicalised path.) -/
theorem c6_multi_batch_stores_raw_path :
    firstStoredPath (process_files canonMark readStub 7 2 (mkPaths 129) 2) = some [[0]] ∧
    canonMark [[0]] = .ok [[99], [0]] ∧
    ([[0]] : RPath) ≠ [[99], [0]] ∧
    firstStoredPath (process_files canonMark readStub 7 2 (mkPaths 5) 2) = some [[99], [0]] := by
  decide

/-! ## Binary32 lemmas -/

lemma log2fuel_spec : ∀ f n, 1 ≤ n → n ≤ f →
    2 ^ log2fuel f n ≤ n ∧ n < 2 ^ (log2fuel f n + 1) := by
  intro f
  induction f with
  | zero => intro n h1 h2; omega
  | succ f ih =>
    intro n h1 h2
    by_cases h : 2 ≤ n
    · have hd1 : 1 ≤ n / 2 := by omega
      have hd2 : n / 2 ≤ f := by omega
      obtain ⟨ihl, ihr⟩ := ih (n / 2) hd1 hd2
      have heq : log2fuel (f + 1) n = log2fuel f (n / 2) + 1 := by
        simp [log2fuel, h]
      rw [heq]
      constructor
      · calc 2 ^ (log2fuel f (n / 2) + 1) = 2 * 2 ^ log2fuel f (n / 2) := by ring
        _ ≤ 2 * (n / 2) := by omega
        _ ≤ n := by omega
      · have : n < 2 * (2 ^ (log2fuel f (n / 2) + 1)) := by omega
        calc n < 2 * 2 ^ (log2fuel f (n / 2) + 1) := this
        _ = 2 ^ (log2fuel f (n / 2) + 1 + 1) := by ring
    · have heq : log2fuel (f + 1) n = 0 := by simp [log2fuel, h]
      rw [heq]
      constructor
      · simpa using h1
      · omega

lemma natLog2_spec (n : Nat) (h : 1 ≤ n) :
    2 ^ natLog2 n ≤ n ∧ n < 2 ^ (natLog2 n + 1) :=
  log2fuel_spec n n h le_rfl

lemma clog2fuel_of_le_one (f : Nat) (y : ℚ) (h : y ≤ 1) : clog2fuel f y = 0 := by
  cases f <;> simp [clog2fuel, h]

lemma clog2fuel_spec : ∀ f (y : ℚ), 1 < y → y ≤ 2 ^ f →
    y ≤ 2 ^ clog2fuel f y ∧ (2 : ℚ) ^ clog2fuel f y < 2 * y := by
  intro f
  induction f with
  | zero =>
    intro y h1 h2
    simp at h2
    linarith
  | succ f ih =>
    intro y h1 h2
    have hny : ¬ y ≤ 1 := not_le.mpr h1
    have heq : clog2fuel (f + 1) y = clog2fuel f (y / 2) + 1 := by
      simp [clog2fuel, hny]
    rw [heq]
    by_cases hy2 : y / 2 ≤ 1
    · rw [clog2fuel_of_le_one f _ hy2]
      norm_num
      constructor <;> linarith
    · have h1s : 1 < y / 2 := lt_of_not_le hy2
      have h2s : y / 2 ≤ 2 ^ f := by
        rw [div_le_iff (by norm_num)]
        calc y ≤ 2 ^ (f + 1) := h2
        _ = 2 ^ f * 2 := by ring
      obtain ⟨il, ir⟩ := ih (y / 2) h1s h2s
      constructor
      · rw [pow_succ]
        linarith [il]
      · rw [pow_succ]
        linarith [ir]

lemma qexp_spec (x : ℚ) (h : 0 < x) :
    (2 : ℚ) ^ qexp x ≤ x ∧ x < 2 ^ (qexp x + 1) := by
  unfold qexp
  by_cases h1 : 1 ≤ x
  · rw [if_pos h1]
    have hfl : 1 ≤ ⌊x⌋ := by exact_mod_cast Int.le_floor.mpr (by exact_mod_cast h1)
    set n : Nat := ⌊x⌋.toNat with hn
    have hn1 : 1 ≤ n := by omega
    have hcast : (n : ℚ) = (⌊x⌋ : ℚ) := by
      rw [hn]
      exact_mod_cast congrArg Int.cast (Int.toNat_of_nonneg (by omega))
    obtain ⟨hl, hr⟩ := natLog2_spec n hn1
    constructor
    · rw [zpow_natCast]
      calc ((2 : ℚ) ^ natLog2 n) = ((2 ^ natLog2 n : Nat) : ℚ) := by push_cast; ring
      _ ≤ (n : ℚ) := by exact_mod_cast hl
      _ = (⌊x⌋ : ℚ) := hcast
      _ ≤ x := Int.floor_le x
    · have hr2 : (n : ℚ) + 1 ≤ 2 ^ (natLog2 n + 1) := by
        have : n + 1 ≤ 2 ^ (natLog2 n + 1) := hr
        exact_mod_cast this
      have hx : x < (n : ℚ) + 1 := by
        rw [hcast]
        exact Int.lt_floor_add_one x
      have : ((natLog2 n : ℤ) + 1) = ((natLog2 n + 1 : Nat) : ℤ) := by push_cast; ring
      rw [this, zpow_natCast]
      calc x < (n : ℚ) + 1 := hx
      _ ≤ 2 ^ (natLog2 n + 1) := hr2
  · rw [if_neg h1]
    push_neg at h1
    have hy1 : 1 < x⁻¹ := (one_lt_inv_iff₀).mpr ⟨h, h1⟩
    have hy0 : 0 < x⁻¹ := by linarith
    have hceil : 1 ≤ ⌈x⁻¹⌉ := by
      rw [Int.le_ceil_iff]
      norm_num
      linarith
    have hfuel : x⁻¹ ≤ 2 ^ (⌈x⁻¹⌉.toNat) := by
      have hc1 : x⁻¹ ≤ (⌈x⁻¹⌉ : ℚ) := Int.le_ceil _
      have hc2 : (⌈x⁻¹⌉ : ℚ) = ((⌈x⁻¹⌉.toNat : ℕ) : ℚ) := by
        norm_cast
        omega
      have hc3 : ((⌈x⁻¹⌉.toNat : ℕ) : ℚ) ≤ ((2 ^ ⌈x⁻¹⌉.toNat : ℕ) : ℚ) := by
        exact_mod_cast Nat.le_of_lt (Nat.lt_two_pow _)
      calc x⁻¹ ≤ (⌈x⁻¹⌉ : ℚ) := hc1
      _ = ((⌈x⁻¹⌉.toNat : ℕ) : ℚ) := hc2
      _ ≤ ((2 ^ ⌈x⁻¹⌉.toNat : ℕ) : ℚ) := hc3
      _ = 2 ^ (⌈x⁻¹⌉.toNat) := by push_cast; ring
    obtain ⟨cl, cr⟩ := clog2fuel_spec (⌈x⁻¹⌉.toNat) x⁻¹ hy1 hfuel
    set K : Nat := clog2fuel (⌈x⁻¹⌉.toNat) x⁻¹ with hK
    have hpowpos : (0 : ℚ) < 2 ^ K := by positivity
    constructor
    · rw [zpow_neg, zpow_natCast]
      have hle : ((2 : ℚ) ^ K)⁻¹ ≤ (x⁻¹)⁻¹ := inv_le_inv_of_le hy0 cl
      rwa [inv_inv] at hle
    · have heq : (-(K : ℤ) + 1) = -((K : ℤ) - 1) := by ring
      rw [heq, zpow_neg]
      have hz : (2 : ℚ) ^ ((K : ℤ) - 1) = 2 ^ K / 2 := by
        rw [zpow_sub₀ (by norm_num : (2 : ℚ) ≠ 0), zpow_natCast, zpow_one]
      have hlt : (2 : ℚ) ^ ((K : ℤ) - 1) < x⁻¹ := by
        rw [hz]
        linarith
      have h2 := inv_lt_inv_of_lt (by positivity : (0 : ℚ) < 2 ^ ((K : ℤ) - 1)) hlt
      rwa [inv_inv] at h2

lemma qexp_unique (x : ℚ) (z : ℤ) (h : 0 < x)
    (h1 : (2 : ℚ) ^ z ≤ x) (h2 : x < 2 ^ (z + 1)) : qexp x = z := by
  obtain ⟨s1, s2⟩ := qexp_spec x h
  have ha : (2 : ℚ) ^ qexp x < 2 ^ (z + 1) := lt_of_le_of_lt s1 h2
  have hb : (2 : ℚ) ^ z < 2 ^ (qexp x + 1) := lt_of_le_of_lt h1 s2
  have hone : (1 : ℚ) < 2 := by norm_num
  have ha2 : qexp x < z + 1 := by
    exact_mod_cast (zpow_lt_zpow_iff_right₀ hone).mp ha
  have hb2 : z < qexp x + 1 := by
    exact_mod_cast (zpow_lt_zpow_iff_right₀ hone).mp hb
  omega

lemma rhe_intCast (m : ℤ) : rhe (m : ℚ) = m := by
  unfold rhe
  rw [Int.floor_intCast]
  norm_num

lemma rhe_floor_le (y : ℚ) : ⌊y⌋ ≤ rhe y := by
  unfold rhe
  split
  · exact le_refl _
  split
  · omega
  split <;> omega

lemma rhe_le (y : ℚ) : (rhe y : ℚ) ≤ y + 1 / 2 := by
  have hfl := Int.floor_le y
  have hfr := Int.lt_floor_add_one y
  unfold rhe
  split
  · linarith
  split
  · push_cast
    linarith
  split
  · linarith
  · push_cast
    linarith

lemma rhe_ge_int (m : ℤ) (y : ℚ) (h : (m : ℚ) ≤ y) : m ≤ rhe y :=
  le_trans (Int.le_floor.mpr h) (rhe_floor_le y)

lemma fl32_eval (x : ℚ) (z : ℤ) (hx : 0 < x)
    (h1 : (2 : ℚ) ^ z ≤ x) (h2 : x < 2 ^ (z + 1)) :
    fl32 x = (rhe (x / 2 ^ (z - 23)) : ℚ) * 2 ^ (z - 23) := by
  rw [fl32, if_neg (not_le.mpr hx), qexp_unique x z hx h1 h2]

lemma qexp_le_of_lt (x : ℚ) (b : ℤ) (hx : 0 < x) (hb : x < 2 ^ b) : qexp x ≤ b - 1 := by
  obtain ⟨s1, -⟩ := qexp_spec x hx
  have : (2 : ℚ) ^ qexp x < 2 ^ b := lt_of_le_of_lt s1 hb
  have h2 : qexp x < b := by
    exact_mod_cast (zpow_lt_zpow_iff_right₀ (by norm_num : (1:ℚ) < 2)).mp this
  omega

lemma fl32_zero : fl32 0 = 0 := by simp [fl32]

lemma fl32_int_exact (k : Nat) (h1 : 1 ≤ k) (h2 : (k : ℚ) < 2 ^ (24 : ℤ)) :
    fl32 (k : ℚ) = k := by
  have hx : (0 : ℚ) < k := by exact_mod_cast h1
  have hz23 : qexp (k : ℚ) ≤ 23 := by
    have := qexp_le_of_lt (k : ℚ) 24 hx h2
    omega
  have hz0 : 0 ≤ qexp (k : ℚ) := by
    obtain ⟨-, s2⟩ := qexp_spec (k : ℚ) hx
    by_contra hneg
    push_neg at hneg
    have : qexp (k : ℚ) + 1 ≤ 0 := by omega
    have hle : (2 : ℚ) ^ (qexp (k : ℚ) + 1) ≤ 2 ^ (0 : ℤ) :=
      zpow_le_zpow_right₀ (by norm_num) this
    have : (k : ℚ) < 1 := by
      calc (k : ℚ) < 2 ^ (qexp (k : ℚ) + 1) := s2
      _ ≤ 2 ^ (0 : ℤ) := hle
      _ = 1 := by norm_num
    exact absurd (by exact_mod_cast this) (by omega)
  obtain ⟨s1, s2⟩ := qexp_spec (k : ℚ) hx
  rw [fl32, if_neg (not_le.mpr hx)]
  set z := qexp (k : ℚ) with hzdef
  set t : Nat := (23 - z).toNat with ht
  have hzt : z - 23 = -(t : ℤ) := by omega
  have hpow : (2 : ℚ) ^ (z - 23) = ((2 : ℚ) ^ t)⁻¹ := by
    rw [hzt, zpow_neg, zpow_natCast]
  have hyint : (k : ℚ) / 2 ^ (z - 23) = ((k * 2 ^ t : ℕ) : ℚ) := by
    rw [hpow, div_eq_mul_inv, inv_inv]
    push_cast
    ring
  rw [hyint]
  have : rhe ((k * 2 ^ t : ℕ) : ℚ) = (k * 2 ^ t : ℕ) := by
    exact_mod_cast rhe_intCast ((k * 2 ^ t : ℕ) : ℤ)
  rw [this, hpow]
  push_cast
  have hppos : (0 : ℚ) < 2 ^ t := by positivity
  rw [mul_assoc, mul_inv_cancel₀ (ne_of_gt hppos), mul_one]

lemma fl32_ge_int (k : Nat) (x : ℚ) (hx : 0 < x) (h24 : x < 2 ^ (24 : ℤ))
    (hk : (k : ℚ) ≤ x) : (k : ℚ) ≤ fl32 x := by
  have hz23 : qexp x ≤ 23 := by
    have := qexp_le_of_lt x 24 hx h24
    omega
  obtain ⟨s1, s2⟩ := qexp_spec x hx
  rw [fl32, if_neg (not_le.mpr hx)]
  set z := qexp x with hzdef
  set t : Nat := (23 - z).toNat with ht
  have hzt : z - 23 = -(t : ℤ) := by omega
  have hpow : (2 : ℚ) ^ (z - 23) = ((2 : ℚ) ^ t)⁻¹ := by
    rw [hzt, zpow_neg, zpow_natCast]
  have hppos : (0 : ℚ) < 2 ^ t := by positivity
  have hm : ((k * 2 ^ t : ℕ) : ℚ) ≤ x / 2 ^ (z - 23) := by
    rw [hpow, div_eq_mul_inv, inv_inv]
    push_cast
    calc (k : ℚ) * 2 ^ t ≤ x * 2 ^ t := by
          exact mul_le_mul_of_nonneg_right hk (le_of_lt hppos)
    _ = x * 2 ^ t := rfl
  have hrhe : ((k * 2 ^ t : ℕ) : ℤ) ≤ rhe (x / 2 ^ (z - 23)) :=
    rhe_ge_int _ _ (by exact_mod_cast hm)
  have hrheQ : ((k * 2 ^ t : ℕ) : ℚ) ≤ (rhe (x / 2 ^ (z - 23)) : ℚ) := by
    exact_mod_cast hrhe
  calc (k : ℚ) = ((k * 2 ^ t : ℕ) : ℚ) * ((2 : ℚ) ^ t)⁻¹ := by
        push_cast
        field_simp
  _ ≤ (rhe (x / 2 ^ (z - 23)) : ℚ) * ((2 : ℚ) ^ t)⁻¹ := by
        exact mul_le_mul_of_nonneg_right hrheQ (by positivity)
  _ = (rhe (x / 2 ^ (z - 23)) : ℚ) * 2 ^ (z - 23) := by rw [hpow]

lemma fl32_le_of_lt (x : ℚ) (hx : 0 < x) (hb : x < 2 ^ (21 : ℤ)) :
    fl32 x ≤ x + 1 / 16 := by
  have hz : qexp x ≤ 20 := by
    have := qexp_le_of_lt x 21 hx hb
    omega
  obtain ⟨s1, s2⟩ := qexp_spec x hx
  rw [fl32, if_neg (not_le.mpr hx)]
  set z := qexp x with hzdef
  have hppos : (0 : ℚ) < 2 ^ (z - 23) := by positivity
  have h1 : (rhe (x / 2 ^ (z - 23)) : ℚ) ≤ x / 2 ^ (z - 23) + 1 / 2 := rhe_le _
  have h2 : (rhe (x / 2 ^ (z - 23)) : ℚ) * 2 ^ (z - 23) ≤
      (x / 2 ^ (z - 23) + 1 / 2) * 2 ^ (z - 23) :=
    mul_le_mul_of_nonneg_right h1 (le_of_lt hppos)
  have h3 : (x / 2 ^ (z - 23) + 1 / 2) * 2 ^ (z - 23) = x + 2 ^ (z - 23) / 2 := by
    field_simp
    ring
  have h4 : (2 : ℚ) ^ (z - 23) ≤ 1 / 8 := by
    calc (2 : ℚ) ^ (z - 23) ≤ 2 ^ (-3 : ℤ) := zpow_le_zpow_right₀ (by norm_num) (by omega)
    _ = 1 / 8 := by norm_num
  calc (rhe (x / 2 ^ (z - 23)) : ℚ) * 2 ^ (z - 23) ≤ x + 2 ^ (z - 23) / 2 := by
        rw [← h3]; exact h2
  _ ≤ x + 1 / 16 := by linarith

lemma rhe_eval_gt (y : ℚ) (k : ℤ) (hk : ⌊y⌋ = k) (h : 1 / 2 < y - k) : rhe y = k + 1 := by
  unfold rhe
  rw [hk]
  rw [if_neg (by linarith), if_pos (by exact h)]

/-- The value of the `f32` literal `0.60`. -/
lemma lit060_val : lit060 = 5033165 / 2 ^ 23 := by
  unfold lit060
  rw [fl32_eval (6 / 10) (-1) (by norm_num)
    (by rw [zpow_neg]; norm_num) (by norm_num)]
  have harg : (6 / 10 : ℚ) / 2 ^ ((-1 : ℤ) - 23) = 50331648 / 5 := by
    rw [show ((-1 : ℤ) - 23) = -24 by ring, zpow_neg, div_eq_mul_inv, inv_inv]
    norm_num
  rw [harg]
  have hfl : ⌊(50331648 / 5 : ℚ)⌋ = 10066329 := by norm_num
  rw [rhe_eval_gt _ 10066329 hfl (by norm_num)]
  rw [show ((-1 : ℤ) - 23) = -24 by ring, zpow_neg]
  norm_num

/-! ## C8 — the reading-time formula -/

/-- C8 (amended): for every body whose space-token count `N` satisfies
`N / 200 ≤ 2 ^ 21`, the estimate equals
`floor((N / 200) * 0.60)` with integer truncation on the division (and is
in particular `0` below 200 tokens).  For larger token counts the `f32`
rounding of `(N / 200) as f32 * 0.60` can exceed the exact product enough
to push the truncation one above the claimed value (see the
counterexample). -/
theorem c8_reading_time (content : Str)
    (hN : (splitChar ' ' content).length / 200 ≤ 2 ^ 21) :
    calculate_reading_time content =
      ⌊(((splitChar ' ' content).length / 200 : ℕ) : ℚ) * (6 / 10)⌋ := by
  set q : ℕ := (splitChar ' ' content).length / 200 with hq
  show i32sat (fl32 (fl32 (q : ℚ) * lit060)) = ⌊(q : ℚ) * (6 / 10)⌋
  rcases Nat.eq_zero_or_pos q with hq0 | hq1
  · rw [hq0]
    norm_num [fl32_zero, i32sat]
  · have hq24 : (q : ℚ) < 2 ^ (24 : ℤ) := by
      calc (q : ℚ) ≤ ((2 ^ 21 : ℕ) : ℚ) := by exact_mod_cast hN
      _ < 2 ^ (24 : ℤ) := by norm_num
    rw [fl32_int_exact q hq1 hq24]
    have hqr : 3 * q = 5 * (3 * q / 5) + 3 * q % 5 := (Nat.div_add_mod _ 5).symm
    have hrlt : 3 * q % 5 < 5 := Nat.mod_lt _ (by norm_num)
    set k : ℕ := 3 * q / 5 with hk
    set r : ℕ := 3 * q % 5 with hr
    have hsplit : (q : ℚ) * (3 / 5) = (k : ℚ) + (r : ℚ) / 5 := by
      have : (3 * q : ℚ) = 5 * (k : ℚ) + (r : ℚ) := by exact_mod_cast hqr
      field_simp
      linarith
    have hr0 : (0 : ℚ) ≤ (r : ℚ) / 5 := by positivity
    have hr1 : (r : ℚ) / 5 < 1 := by
      have : (r : ℚ) < 5 := by exact_mod_cast hrlt
      linarith
    have hrhs : ⌊(q : ℚ) * (6 / 10)⌋ = (k : ℤ) := by
      rw [show (6 / 10 : ℚ) = 3 / 5 by norm_num, hsplit, Int.floor_eq_iff]
      constructor
      · push_cast
        linarith
      · push_cast
        linarith
    have hconst : (5033165 / 2 ^ 23 : ℚ) = 3 / 5 + 1 / 41943040 := by norm_num
    have hxval : (q : ℚ) * lit060 = (q : ℚ) * (3 / 5) + (q : ℚ) / 41943040 := by
      rw [lit060_val, hconst]
      ring
    set x : ℚ := (q : ℚ) * lit060 with hxdef
    have hqpos : (0 : ℚ) < (q : ℚ) := by exact_mod_cast hq1
    have hq21 : (q : ℚ) ≤ ((2 ^ 21 : ℕ) : ℚ) := by exact_mod_cast hN
    have hx_pos : 0 < x := by
      rw [hxval]
      positivity
    have hx_lt : x < 2 ^ (21 : ℤ) := by
      rw [hxval, hsplit]
      have hkq : (k : ℚ) + (r : ℚ) / 5 = (q : ℚ) * (3 / 5) := hsplit.symm
      have h1 : (q : ℚ) * (3 / 5) + (q : ℚ) / 41943040 ≤
          ((2 ^ 21 : ℕ) : ℚ) * (3 / 5) + ((2 ^ 21 : ℕ) : ℚ) / 41943040 := by
        have := hq21
        gcongr
      calc (k : ℚ) + (r : ℚ) / 5 + (q : ℚ) / 41943040
          = (q : ℚ) * (3 / 5) + (q : ℚ) / 41943040 := by rw [hkq]
      _ ≤ ((2 ^ 21 : ℕ) : ℚ) * (3 / 5) + ((2 ^ 21 : ℕ) : ℚ) / 41943040 := h1
      _ < 2 ^ (21 : ℤ) := by norm_num
    have hk_le : (k : ℚ) ≤ x := by
      rw [hxval, hsplit]
      have hq0q : (0 : ℚ) ≤ (q : ℚ) / 41943040 := by positivity
      linarith
    have hge := fl32_ge_int k x hx_pos
      (lt_trans hx_lt (by norm_num : (2 : ℚ) ^ (21 : ℤ) < 2 ^ (24 : ℤ))) hk_le
    have hle := fl32_le_of_lt x hx_pos hx_lt
    have hq120 : (q : ℚ) / 41943040 ≤ 1 / 20 := by
      rw [div_le_div_iff (by norm_num) (by norm_num)]
      push_cast at hq21 ⊢
      linarith
    have hr45 : (r : ℚ) / 5 ≤ 4 / 5 := by
      have : (r : ℚ) ≤ 4 := by exact_mod_cast (by omega : r ≤ 4)
      linarith
    have hup : fl32 x < (k : ℚ) + 1 := by
      have hxk : x ≤ (k : ℚ) + 4 / 5 + 1 / 20 := by
        rw [hxval, hsplit]
        linarith
      linarith
    have hfloor : ⌊fl32 x⌋ = (k : ℤ) := by
      rw [Int.floor_eq_iff]
      refine ⟨by exact_mod_cast hge, ?_⟩
      push_cast
      linarith
    have hkbound : (k : ℤ) ≤ 2 ^ 31 - 1 := by
      have : k ≤ 2 ^ 21 := by omega
      omega
    rw [hrhs, i32sat, hfloor]
    exact min_eq_left hkbound

/-- Length of splitting a run of the separator itself. -/
lemma splitChar_sep_replicate (c : Char) :
    ∀ n, (splitChar c (List.replicate n c)).length = n + 1 := by
  intro n
  induction n with
  | zero => simp [splitChar]
  | succ n ih =>
    rw [List.replicate_succ]
    cases hsp : splitChar c (List.replicate n c) with
    | nil => rw [hsp] at ih; simp at ih
    | cons p ps =>
      rw [hsp] at ih
      simp [splitChar, hsp]
      simp at ih
      omega

/-- C8 counterexample: a body of 1398101599 spaces has
`N = 1398101600` tokens and `N / 200 = 6990508`; the `f32` computation
rounds `6990508 * 0.60f32 ≈ 4194304.88` up to the representable value
`4194305.0`, so the code returns `4194305` while the claimed formula
`floor((N/200) * 0.60)` gives `4194304`. -/
theorem c8_counterexample :
    calculate_reading_time (List.replicate 1398101599 ' ') = 4194305 ∧
    ⌊((1398101600 / 200 : ℕ) : ℚ) * (6 / 10)⌋ = 4194304 ∧
    (4194305 : Int) ≠ 4194304 := by
  refine ⟨?_, by norm_num, by norm_num⟩
  show i32sat (fl32 (fl32
    (((splitChar ' ' (List.replicate 1398101599 ' ')).length / 200 : ℕ) : ℚ) * lit060)) = 4194305
  rw [splitChar_sep_replicate]
  rw [show (1398101599 + 1) / 200 = 6990508 from by norm_num]
  rw [fl32_int_exact 6990508 (by norm_num) (by norm_num)]
  have hx : ((6990508 : ℕ) : ℚ) * lit060 = 35184380197820 / 2 ^ 23 := by
    rw [lit060_val]
    norm_num
  rw [hx]
  rw [fl32_eval _ 22 (by norm_num) (by norm_num) (by norm_num)]
  have harg : (35184380197820 / 2 ^ 23 : ℚ) / 2 ^ ((22 : ℤ) - 23) =
      35184380197820 / 2 ^ 22 := by
    rw [show ((22 : ℤ) - 23) = -1 by ring, zpow_neg, div_eq_mul_inv, inv_inv]
    norm_num
  rw [harg]
  have hfl : ⌊(35184380197820 / 2 ^ 22 : ℚ)⌋ = 8388609 := by norm_num
  rw [rhe_eval_gt _ 8388609 hfl (by norm_num)]
  rw [show ((22 : ℤ) - 23) = -1 by ring, zpow_neg]
  norm_num [i32sat]

/-- C8 witness: the amended formula at the empty body (one token). -/
theorem c8_witness : calculate_reading_time ([] : Str) = 0 := by
  have h := c8_reading_time [] (by decide)
  rw [h]
  rw [show ((splitChar ' ' ([] : Str)).length / 200 : ℕ) = 0 from by decide]
  norm_num

/-! ## Walker lemmas: selection and reconciliation -/

lemma selectMd_paths_iff (ownPath : RPath) (es : List FsEntry) (p : RPath) :
    p ∈ (selectMd ownPath es).1 ↔
      ∃ e ∈ es, p = ownPath ++ [e.nameOf] ∧ hasMdExt e.nameOf = true := by
  induction es with
  | nil => simp [selectMd]
  | cons e es ih =>
    by_cases hmd : hasMdExt e.nameOf = true
    · by_cases hdec : ∃ n, decodeUtf8 e.nameOf = some n
      · obtain ⟨n, hn⟩ := hdec
        simp [selectMd, hmd, hn, ih]
      · have hn : decodeUtf8 e.nameOf = none := by
          cases h : decodeUtf8 e.nameOf
          · rfl
          · exact absurd ⟨_, h⟩ hdec
        simp [selectMd, hmd, hn, ih]
    · simp [selectMd, hmd, ih]

lemma selectMd_names_eq (ownPath : RPath) (es : List FsEntry) :
    (selectMd ownPath es).2 = (selectMd ownPath es).1.filterMap pathName := by
  induction es with
  | nil => simp [selectMd]
  | cons e es ih =>
    have hlast : pathName (ownPath ++ [e.nameOf]) = decodeUtf8 e.nameOf := by
      simp [pathName, List.getLast?_concat]
    by_cases hmd : hasMdExt e.nameOf = true
    · cases hdec : decodeUtf8 e.nameOf with
      | none => simp [selectMd, hmd, hdec, ih, hlast]
      | some n => simp [selectMd, hmd, hdec, ih, hlast]
    · simp [selectMd, hmd, ih]

lemma swapRemove_cons_succ (a : RPath) (l : List RPath) (i : Nat) (h : i < l.length) :
    swapRemove (a :: l) (i + 1) = a :: swapRemove l i := by
  have hne : l ≠ [] := by
    intro hl
    rw [hl] at h
    simp at h
  unfold swapRemove
  rw [show (a :: l).getLast? = l.getLast? by
    cases l with
    | nil => exact absurd rfl hne
    | cons b bs => rw [List.getLast?_cons_cons]]
  rw [List.set_cons_succ]
  rw [List.dropLast_cons_of_ne_nil]
  intro hset
  apply hne
  have hlen := congrArg List.length hset
  simp at hlen
  exact hlen

lemma swapRemove_perm (l : List RPath) (i : Nat) (h : i < l.length) :
    (swapRemove l i).Perm (l.eraseIdx i) := by
  induction l generalizing i with
  | nil => simp at h
  | cons a l ih =>
    cases i with
    | zero =>
      cases hne : l with
      | nil =>
        simp [swapRemove, List.eraseIdx]
      | cons b bs =>
        rw [← hne]
        have hlne : l ≠ [] := by rw [hne]; simp
        have hget : (a :: l).getLast? = some (l.getLast hlne) := by
          rw [show (a :: l).getLast? = l.getLast? by
            cases l with
            | nil => exact absurd rfl hlne
            | cons c cs => rw [List.getLast?_cons_cons]]
          exact List.getLast?_eq_getLast l hlne
        unfold swapRemove
        rw [hget]
        simp only [Option.getD_some, List.set_cons_zero, List.eraseIdx_cons_zero]
        rw [List.dropLast_cons_of_ne_nil hlne]
        calc (l.getLast hlne :: l.dropLast).Perm (l.dropLast ++ [l.getLast hlne]) :=
              (List.perm_append_singleton _ _).symm
        _ = l := List.dropLast_append_getLast hlne
    | succ i =>
      have hi : i < l.length := by simpa using h
      rw [swapRemove_cons_succ a l i hi, List.eraseIdx_cons_succ]
      exact (ih i hi).cons a

lemma matchPos_some (name : Str) :
    ∀ (md : List RPath) (i : Nat), matchPos name md = some i →
      ∃ hi : i < md.length, nameMatches name (md.get ⟨i, hi⟩) = true := by
  intro md
  induction md with
  | nil => intro i h; simp [matchPos] at h
  | cons p ps ih =>
    intro i h
    by_cases hm : nameMatches name p = true
    · simp [matchPos, hm] at h
      subst h
      exact ⟨by simp, hm⟩
    · simp [matchPos, hm] at h
      obtain ⟨j, hj, rfl⟩ := h
      obtain ⟨hjlt, hjm⟩ := ih j hj
      exact ⟨by simpa using hjlt, by simpa using hjm⟩

lemma mem_eraseIdx_of_ne (p : RPath) :
    ∀ (l : List RPath) (i : Nat), p ∈ l →
      (∀ hi : i < l.length, l.get ⟨i, hi⟩ ≠ p) → p ∈ l.eraseIdx i := by
  intro l
  induction l with
  | nil => intro i h; simp at h
  | cons a l ih =>
    intro i hmem hne
    cases i with
    | zero =>
      rw [List.eraseIdx_cons_zero]
      rcases List.mem_cons.mp hmem with heq | hmem2
      · exact absurd heq.symm (by simpa using hne (by simp))
      · exact hmem2
    | succ i =>
      rw [List.eraseIdx_cons_succ]
      rcases List.mem_cons.mp hmem with heq | hmem2
      · rw [heq]
        exact List.mem_cons_self _ _
      · refine List.mem_cons_of_mem _ (ih i hmem2 ?_)
        intro hi hgi
        exact hne (by simpa using hi) (by simpa using hgi)

lemma removeExisting_mem_keeps (p : RPath) (hnm : ∀ name, nameMatches name p = false) :
    ∀ (existing : List DocRow) (md : List RPath), p ∈ md →
      p ∈ removeExisting existing md := by
  intro existing
  induction existing with
  | nil => intro md h; simpa [removeExisting] using h
  | cons item rest ih =>
    intro md hmem
    unfold removeExisting
    cases hmp : matchPos item.file_name md with
    | none => exact ih md hmem
    | some i =>
      obtain ⟨hi, hmatch⟩ := matchPos_some _ md i hmp
      apply ih
      apply (swapRemove_perm md i hi).mem_iff.mpr
      apply mem_eraseIdx_of_ne p md i hmem
      intro hi2 hgi
      rw [hgi] at hmatch
      rw [hnm item.file_name] at hmatch
      exact Bool.false_ne_true hmatch

lemma removeExisting_subset (x : RPath) :
    ∀ (existing : List DocRow) (md : List RPath),
      x ∈ removeExisting existing md → x ∈ md := by
  intro existing
  induction existing with
  | nil => intro md h; simpa [removeExisting] using h
  | cons item rest ih =>
    intro md h
    unfold removeExisting at h
    cases hmp : matchPos item.file_name md with
    | none =>
      rw [hmp] at h
      exact ih md h
    | some i =>
      rw [hmp] at h
      obtain ⟨hi, -⟩ := matchPos_some _ md i hmp
      have := ih _ h
      have h2 := (swapRemove_perm md i hi).mem_iff.mp this
      exact (List.eraseIdx_sublist md i).mem h2

/-! ## C10 — non-UTF-8 `.md` names leak through the diff -/

/-- C10: an entry whose extension is `md` but whose file name is not
valid UTF-8 has its path collected for the batcher while contributing
nothing to the candidate-name set (every candidate name decodes from some
entry); the reconciliation loop never removes it, whatever the catalog
returned; and the Document built for it carries the sentinel name
`__unknown` — so the file is parsed and submitted for insertion on every
run. -/
theorem c10_non_utf8_md_leak (ownPath : RPath) (entries : List FsEntry) (e : FsEntry)
    (he : e ∈ entries) (hmd : hasMdExt e.nameOf = true)
    (hbad : decodeUtf8 e.nameOf = none) :
    (ownPath ++ [e.nameOf]) ∈ (selectMd ownPath entries).1 ∧
    (∀ n ∈ (selectMd ownPath entries).2,
      ∃ p ∈ (selectMd ownPath entries).1, pathName p = some n) ∧
    (∀ existing : List DocRow,
      (ownPath ++ [e.nameOf]) ∈ removeExisting existing (selectMd ownPath entries).1) ∧
    documentName (ownPath ++ [e.nameOf]) = unknownName := by
  have hmem : (ownPath ++ [e.nameOf]) ∈ (selectMd ownPath entries).1 :=
    (selectMd_paths_iff ownPath entries _).mpr ⟨e, he, rfl, hmd⟩
  have hpn : pathName (ownPath ++ [e.nameOf]) = none := by
    simp [pathName, List.getLast?_concat, hbad]
  have hnm : ∀ name, nameMatches name (ownPath ++ [e.nameOf]) = false := by
    intro name
    simp [nameMatches, hpn]
  refine ⟨hmem, ?_, ?_, ?_⟩
  · intro n hn
    rw [selectMd_names_eq] at hn
    obtain ⟨p, hp, hpn2⟩ := List.mem_filterMap.mp hn
    exact ⟨p, hp, hpn2⟩
  · intro existing
    exact removeExisting_mem_keeps _ hnm existing _ hmem
  · simp [documentName, List.getLast?_concat, hbad, unknownName]

/-- C10 witness: the file `\xFF.md` inside a root directory, diffed
against a catalog that already contains its `__unknown` row. -/
theorem c10_witness :
    ([[0xFF, 0x2E, 0x6D, 0x64]] : RPath) ∈
      (selectMd [] [.file [0xFF, 0x2E, 0x6D, 0x64] []]).1 ∧
    ([[0xFF, 0x2E, 0x6D, 0x64]] : RPath) ∈
      removeExisting [⟨chars "__unknown", 0, [[0xFF, 0x2E, 0x6D, 0x64]], {}⟩]
        (selectMd [] [.file [0xFF, 0x2E, 0x6D, 0x64] []]).1 ∧
    documentName [[0xFF, 0x2E, 0x6D, 0x64]] = unknownName := by
  have h := c10_non_utf8_md_leak [] [.file [0xFF, 0x2E, 0x6D, 0x64] []]
    (.file [0xFF, 0x2E, 0x6D, 0x64] []) (by simp) (by decide) (by decide)
  exact ⟨h.1, h.2.2.1 _, h.2.2.2⟩

/-! ## C9 machinery: documents inserted by the walker come from `md` paths -/

lemma resolveDir_docs (db : Db) (op : RPath) (dn : Str) (par : Option Nat) :
    (resolveDir db op dn par).2.docs = db.docs := by
  cases par <;> unfold resolveDir <;> dsimp only <;> split <;> simp [Db.insertDir]

lemma insertPairs_docs (pairs : List Pair) :
    ∀ (db db' : Db), insertPairs pairs db = .ok db' →
      ∀ row ∈ db'.docs, row ∈ db.docs ∨ ∃ pr ∈ pairs, row.path = pr.1.path := by
  induction pairs with
  | nil =>
    intro db db' h row hrow
    simp [insertPairs] at h
    subst h
    exact Or.inl hrow
  | cons pr rest ih =>
    intro db db' h row hrow
    unfold insertPairs at h
    cases hins : db.insertDoc pr.1 pr.2 with
    | error e => rw [hins] at h; simp at h
    | ok db1 =>
      rw [hins] at h
      rcases ih db1 db' h row hrow with hin | ⟨pr2, hpr2, hpath⟩
      · unfold Db.insertDoc at hins
        split at hins
        · simp at hins
        · simp at hins
          rw [← hins] at hin
          simp at hin
          rcases hin with hin | hin
          · exact Or.inl hin
          · exact Or.inr ⟨pr, List.mem_cons_self _ _, by rw [hin]⟩
      · exact Or.inr ⟨pr2, List.mem_cons_of_mem _ hpr2, hpath⟩

lemma worker_paths (canon : Canon) (readDoc : ReadDoc) (dir : Nat) :
    ∀ (b : List RPath) (v : List Pair), worker canon readDoc dir b = .ok v →
      ∀ pr ∈ v, pr.1.path ∈ b := by
  intro b
  induction b with
  | nil => intro v h pr hpr; simp [worker] at h; subst h; simp at hpr
  | cons p ps ih =>
    intro v h pr hpr
    unfold worker at h
    cases hc : canon p with
    | error e => rw [hc] at h; simp at h
    | ok cp =>
      rw [hc] at h
      dsimp only at h
      cases hd : docNew readDoc dir (documentName cp) p with
      | ok pair =>
        rw [hd] at h
        cases hw : worker canon readDoc dir ps with
        | ok rest =>
          rw [hw] at h
          simp [PRes.bind] at h
          subst h
          rcases List.mem_cons.mp hpr with heq | hmem
          · have hpp : pair.1.path = p := by
              unfold docNew at hd
              cases hr : readDoc p with
              | ok m =>
                rw [hr] at hd
                simp [PRes.bind] at hd
                rw [← hd]
              | error e => rw [hr] at hd; simp [PRes.bind] at hd
              | panicked => rw [hr] at hd; simp [PRes.bind] at hd
              | fuelOut => rw [hr] at hd; simp [PRes.bind] at hd
            rw [heq, hpp]
            exact List.mem_cons_self _ _
          · exact List.mem_cons_of_mem _ (ih rest hw pr hmem)
        | error e => rw [hw] at h; simp [PRes.bind] at h
        | panicked => rw [hw] at h; simp [PRes.bind] at h
        | fuelOut => rw [hw] at h; simp [PRes.bind] at h
      | error e => rw [hd] at h; simp [PRes.bind] at h
      | panicked => rw [hd] at h; simp [PRes.bind] at h
      | fuelOut => rw [hd] at h; simp [PRes.bind] at h

lemma inline_paths (readDoc : ReadDoc) (dir : Nat) :
    ∀ (b : List RPath) (acc v : List Pair),
      inlineBatch (fun p => .ok p) readDoc dir b acc = .ok v →
      ∀ pr ∈ v, pr ∈ acc ∨ pr.1.path ∈ b := by
  intro b
  induction b with
  | nil =>
    intro acc v h pr hpr
    simp [inlineBatch] at h
    subst h
    exact Or.inl hpr
  | cons p ps ih =>
    intro acc v h pr hpr
    unfold inlineBatch at h
    simp only at h
    cases hd : docNew readDoc dir (documentName p) p with
    | ok pair =>
      rw [hd] at h
      simp [PRes.bind] at h
      rcases ih _ v h pr hpr with hacc | hb
      · rcases List.mem_append.mp hacc with h1 | h1
        · exact Or.inl h1
        · right
          simp at h1
          rw [h1]
          unfold docNew at hd
          cases hr : readDoc p with
          | ok m => rw [hr] at hd; simp [PRes.bind] at hd; rw [← hd]; simp
          | error e => rw [hr] at hd; simp [PRes.bind] at hd
          | panicked => rw [hr] at hd; simp [PRes.bind] at hd
          | fuelOut => rw [hr] at hd; simp [PRes.bind] at hd
      · exact Or.inr (List.mem_cons_of_mem _ hb)
    | error e => rw [hd] at h; simp [PRes.bind] at h
    | panicked => rw [hd] at h; simp [PRes.bind] at h
    | fuelOut => rw [hd] at h; simp [PRes.bind] at h

lemma fold_worker_paths (canon : Canon) (readDoc : ReadDoc) (dir : Nat) :
    ∀ (bs : List (List RPath)) (acc : List Pair) (pr : Pair),
      pr ∈ bs.foldl
        (fun acc b =>
          match worker canon readDoc dir b with
          | .ok v => acc ++ v
          | _ => acc)
        acc →
      pr ∈ acc ∨ pr.1.path ∈ bs.join := by
  intro bs
  induction bs with
  | nil => intro acc pr h; simp at h; exact Or.inl h
  | cons b bs ih =>
    intro acc pr h
    rw [List.foldl_cons] at h
    cases hw : worker canon readDoc dir b with
    | ok v =>
      rw [hw] at h
      rcases ih _ pr h with hacc | hjoin
      · rcases List.mem_append.mp hacc with h1 | h1
        · exact Or.inl h1
        · exact Or.inr (by simp [worker_paths canon readDoc dir b v hw pr h1])
      · exact Or.inr (by simp [hjoin])
    | error e => rw [hw] at h; rcases ih _ pr h with h1 | h1; exact Or.inl h1; exact Or.inr (by simp [h1])
    | panicked => rw [hw] at h; rcases ih _ pr h with h1 | h1; exact Or.inl h1; exact Or.inr (by simp [h1])
    | fuelOut => rw [hw] at h; rcases ih _ pr h with h1 | h1; exact Or.inl h1; exact Or.inr (by simp [h1])

lemma formBatches_batch_subset (paths : List RPath) (total : Nat) :
    ∀ (slots i : Nat) (b : List RPath), b ∈ (formBatches paths total slots i).1 →
      ∀ p ∈ b, p ∈ paths := by
  intro slots
  induction slots with
  | zero => intro i b hb; simp [formBatches] at hb
  | succ slots ih =>
    intro i b hb p hp
    unfold formBatches at hb
    dsimp only at hb
    split at hb
    · simp at hb
      subst hb
      exact List.mem_of_mem_drop (List.mem_of_mem_take hp)
    · simp at hb
      rcases hb with hb | hb
      · subst hb
        exact List.mem_of_mem_drop (List.mem_of_mem_take hp)
      · exact ih (i + 1) b hb p hp

lemma runRound_paths (readDoc : ReadDoc) (dir : Nat)
    (batches : List (List RPath)) (files v : List Pair)
    (h : runRound (fun p => .ok p) readDoc dir batches files = .ok v) :
    ∀ pr ∈ v, pr ∈ files ∨ ∃ b ∈ batches, pr.1.path ∈ b := by
  intro pr hpr
  unfold runRound at h
  split at h
  · simp at h
    subst h
    rcases fold_worker_paths _ readDoc dir batches files pr hpr with h1 | h1
    · exact Or.inl h1
    · obtain ⟨b, hb, hpb⟩ := List.mem_join.mp h1
      exact Or.inr ⟨b, hb, hpb⟩
  · match batches, h with
    | b :: bs, h =>
      rcases inline_paths readDoc dir b files v h pr hpr with h1 | h1
      · exact Or.inl h1
      · exact Or.inr ⟨b, List.mem_cons_self _ _, h1⟩

lemma loop_paths (readDoc : ReadDoc) (dir mt : Nat) (paths : List RPath) (total : Nat) :
    ∀ (fuel remaining : Nat) (files v : List Pair),
      processFilesLoop (fun p => .ok p) readDoc dir mt paths total fuel remaining files = .ok v →
      ∀ pr ∈ v, pr ∈ files ∨ pr.1.path ∈ paths := by
  intro fuel
  induction fuel with
  | zero => intro remaining files v h; simp [processFilesLoop] at h
  | succ fuel ih =>
    intro remaining files v h pr hpr
    unfold processFilesLoop at h
    dsimp only at h
    split at h
    · simp at h
      subst h
      exact Or.inl hpr
    · cases hr : runRound (fun p => .ok p) readDoc dir
        ((formBatches paths total mt 0).1.filter (fun b => ¬ b = [])) files with
      | ok files2 =>
        rw [hr] at h
        rcases ih _ files2 v h pr hpr with h1 | h1
        · rcases runRound_paths readDoc dir _ files files2 hr pr h1 with h2 | ⟨b, hb, hpb⟩
          · exact Or.inl h2
          · exact Or.inr (formBatches_batch_subset paths total mt 0 b
              (List.mem_of_mem_filter hb) _ hpb)
        · exact Or.inr h1
      | error e => rw [hr] at h; simp at h
      | panicked => rw [hr] at h; simp at h
      | fuelOut => rw [hr] at h; simp at h

lemma pf_paths (readDoc : ReadDoc) (dir mt : Nat) (paths : List RPath) (fuel : Nat)
    (v : List Pair) (h : process_files (fun p => .ok p) readDoc dir mt paths fuel = .ok v) :
    ∀ pr ∈ v, pr.1.path ∈ paths := by
  intro pr hpr
  rcases loop_paths readDoc dir mt paths paths.length fuel paths.length [] v h pr hpr with h1 | h1
  · simp at h1
  · exact h1

/-- A path selected for the batcher ends in a component with the `md`
extension. -/
lemma mdFiles_last_md (ownPath : RPath) (es : List FsEntry) (p : RPath)
    (hp : p ∈ (selectMd ownPath es).1) :
    ∃ os, p.getLast? = some os ∧ hasMdExt os = true := by
  obtain ⟨e, -, rfl, hmd⟩ := (selectMd_paths_iff ownPath es p).mp hp
  exact ⟨e.nameOf, List.getLast?_concat _, hmd⟩

mutual
/-- Documents added to the catalog by `process_directory` all carry a
path whose final component has the `md` extension. -/
lemma pd_docs_md (yaml : Yaml) (mt : Nat) (pp : RPath) (t : FsTree)
    (par : Option Nat) (db db' : Db)
    (h : process_directory yaml mt pp t par db = .ok db') :
    ∀ row ∈ db'.docs, row ∈ db.docs ∨
      ∃ os, row.path.getLast? = some os ∧ hasMdExt os = true := by
  match t with
  | .node nm es =>
    intro row hrow
    unfold process_directory at h
    cases hdn : decodeUtf8 nm with
    | none => rw [hdn] at h; simp at h
    | some dn =>
      rw [hdn] at h
      simp only at h
      cases hsub : processSubdirs yaml mt (pp ++ [nm])
          (resolveDir db (pp ++ [nm]) dn par).1.id es
          (resolveDir db (pp ++ [nm]) dn par).2 with
      | ok db1 =>
        rw [hsub] at h
        simp only [PRes.bind] at h
        cases hpf : process_files (fun p => .ok p)
            (readEntry yaml (pp ++ [nm]) es) (resolveDir db (pp ++ [nm]) dn par).1.id mt
            (removeExisting
              (db1.listDocumentInDir (resolveDir db (pp ++ [nm]) dn par).1.id
                (selectMd (pp ++ [nm]) es).2)
              (selectMd (pp ++ [nm]) es).1)
            ((removeExisting
              (db1.listDocumentInDir (resolveDir db (pp ++ [nm]) dn par).1.id
                (selectMd (pp ++ [nm]) es).2)
              (selectMd (pp ++ [nm]) es).1).length + 2) with
        | ok pairs =>
          rw [hpf] at h
          simp only [PRes.bind] at h
          rcases insertPairs_docs pairs db1 db' h row hrow with h1 | ⟨pr, hpr, hpath⟩
          · rcases pd_subdirs_docs_md yaml mt (pp ++ [nm])
              (resolveDir db (pp ++ [nm]) dn par).1.id es
              (resolveDir db (pp ++ [nm]) dn par).2 db1 hsub row h1 with h2 | h2
            · rw [resolveDir_docs] at h2
              exact Or.inl h2
            · exact Or.inr h2
          · right
            have hin := pf_paths _ _ _ _ _ _ hpf pr hpr
            have hin2 := removeExisting_subset _ _ _ hin
            obtain ⟨os, hos, hmd⟩ := mdFiles_last_md _ _ _ hin2
            rw [hpath]
            exact ⟨os, hos, hmd⟩
        | error e => rw [hpf] at h; simp [PRes.bind] at h
        | panicked => rw [hpf] at h; simp [PRes.bind] at h
        | fuelOut => rw [hpf] at h; simp [PRes.bind] at h
      | error e => rw [hsub] at h; simp [PRes.bind] at h
      | panicked => rw [hsub] at h; simp [PRes.bind] at h
      | fuelOut => rw [hsub] at h; simp [PRes.bind] at h

/-- Same statement for the sub-directory recursion loop. -/
lemma pd_subdirs_docs_md (yaml : Yaml) (mt : Nat) (op : RPath) (dirId : Nat)
    (es : List FsEntry) (db db' : Db)
    (h : processSubdirs yaml mt op dirId es db = .ok db') :
    ∀ row ∈ db'.docs, row ∈ db.docs ∨
      ∃ os, row.path.getLast? = some os ∧ hasMdExt os = true := by
  match es with
  | [] =>
    intro row hrow
    simp [processSubdirs] at h
    subst h
    exact Or.inl hrow
  | .file n c :: es =>
    intro row hrow
    unfold processSubdirs at h
    exact pd_subdirs_docs_md yaml mt op dirId es db db' h row hrow
  | .dir t :: es =>
    intro row hrow
    unfold processSubdirs at h
    cases hd : process_directory yaml mt op t (some dirId) db with
    | ok db1 =>
      rw [hd] at h
      simp only [PRes.bind] at h
      rcases pd_subdirs_docs_md yaml mt op dirId es db1 db' h row hrow with h1 | h1
      · exact pd_docs_md yaml mt op t (some dirId) db db1 hd row h1
      · exact Or.inr h1
    | error e => rw [hd] at h; simp [PRes.bind] at h
    | panicked => rw [hd] at h; simp [PRes.bind] at h
    | fuelOut => rw [hd] at h; simp [PRes.bind] at h
end

/-! ## C9 — the extension filter -/

/-- C9: a directory entry is collected for document creation if and only
if its final component carries exactly the (lowercase, valid-UTF-8)
extension `md` — entries with no extension, a non-UTF-8 extension or any
other extension (including `MD`) are skipped — and every document row a
run adds to the catalog stems from such a path. -/
theorem c9_extension_filter (yaml : Yaml) (mt : Nat) (pp : RPath) (nm : OsStr)
    (es : List FsEntry) (par : Option Nat) (db db' : Db)
    (hrun : process_directory yaml mt pp (.node nm es) par db = .ok db') :
    (∀ row ∈ db'.docs, row ∈ db.docs ∨
      ∃ os, row.path.getLast? = some os ∧ hasMdExt os = true) ∧
    (∀ p, p ∈ (selectMd (pp ++ [nm]) es).1 ↔
      ∃ e ∈ es, p = (pp ++ [nm]) ++ [e.nameOf] ∧ hasMdExt e.nameOf = true) :=
  ⟨pd_docs_md yaml mt pp (.node nm es) par db db' hrun,
   fun p => selectMd_paths_iff (pp ++ [nm]) es p⟩

/-- Witness directory: `n/` holding `a.md` and `b.txt`. -/
def entriesW : List FsEntry := [.file [97, 46, 109, 100] [], .file [98, 46, 116, 120, 116] []]

/-- Catalog state after ingesting the witness directory. -/
def dbW : Db :=
  ⟨[⟨0, ['n'], none, [[110]]⟩],
   [⟨chars "a.md", 0, [[110], [97, 46, 109, 100]], {}⟩], 1, 1, 1⟩

/-- C9 witness: ingesting `n/` from the empty catalog adds only the row
for `a.md`, whose path ends in an `md`-extension component, and the
selection predicate holds exactly for that entry. -/
theorem c9_witness :
    ((⟨chars "a.md", 0, [[110], [97, 46, 109, 100]], {}⟩ : DocRow) ∈ Db.empty.docs ∨
      ∃ os, ([[110], [97, 46, 109, 100]] : RPath).getLast? = some os ∧ hasMdExt os = true) ∧
    (([[110], [97, 46, 109, 100]] : RPath) ∈ (selectMd [[110]] entriesW).1 ↔
      ∃ e ∈ entriesW, ([[110], [97, 46, 109, 100]] : RPath) = [[110]] ++ [e.nameOf] ∧
        hasMdExt e.nameOf = true) := by
  have h := c9_extension_filter yamlStub 1 [] [110] entriesW none Db.empty dbW (by decide)
  exact ⟨h.1 ⟨chars "a.md", 0, [[110], [97, 46, 109, 100]], {}⟩ (by decide), h.2 _⟩

/-! ## C2 machinery: well-formed trees and settled catalogs -/

/-- The lookup half of the directory-resolution step. -/
def lookupDir (db : Db) (dn : Str) (par : Option Nat) : Option DirRow :=
  match par with
  | some pid => db.getDirByNameAndParent dn pid
  | none => db.getRootDirByName dn

mutual
/-- A tree the walker ingests cleanly: every `md`-extension entry is a
regular file with a valid-UTF-8 name and front matter the parser accepts,
directory names never carry the `md` extension, and each directory holds
at most `mt * FILES_PER_THREAD` entries with the `md` extension (one
batching round — beyond it the offset bug of C5 re-processes paths). -/
def treeGood (yaml : Yaml) (mt : Nat) : FsTree → Bool
  | .node _ es =>
    decide ((selectMd [] es).1.length ≤ mt * FILES_PER_THREAD) && entriesGood yaml mt es

/-- `treeGood` over an entry list. -/
def entriesGood (yaml : Yaml) (mt : Nat) : List FsEntry → Bool
  | [] => true
  | e :: es => entryGood yaml mt e && entriesGood yaml mt es

/-- `treeGood` for a single entry. -/
def entryGood (yaml : Yaml) (mt : Nat) : FsEntry → Bool
  | .file n c =>
    if hasMdExt n then
      (decodeUtf8 n).isSome &&
        (match read_from_str yaml c with | .ok _ => true | _ => false)
    else true
  | .dir t => !hasMdExt t.name && treeGood yaml mt t
end

mutual
/-- A catalog is settled for a tree when every directory resolves by
lookup, recursively, and the reconciliation diff leaves no `md` path to
process. -/
def Settled (db : Db) (pp : RPath) : FsTree → Option Nat → Prop
  | .node name es, par =>
    ∃ dn, decodeUtf8 name = some dn ∧
    ∃ row, lookupDir db dn par = some row ∧
      SettledEntries db (pp ++ [name]) es row.id ∧
      removeExisting
        (db.listDocumentInDir row.id (selectMd (pp ++ [name]) es).2)
        (selectMd (pp ++ [name]) es).1 = []

/-- `Settled` over an entry list. -/
def SettledEntries (db : Db) (op : RPath) : List FsEntry → Nat → Prop
  | [], _ => True
  | .file _ _ :: es, dirId => SettledEntries db op es dirId
  | .dir t :: es, dirId => Settled db op t (some dirId) ∧ SettledEntries db op es dirId
end

/-- One catalog state extends another by appended rows. -/
def Db.Extends (db db2 : Db) : Prop :=
  (∃ d, db2.dirs = db.dirs ++ d) ∧ (∃ o, db2.docs = db.docs ++ o)

lemma Db.Extends.rfl (db : Db) : db.Extends db := ⟨⟨[], by simp⟩, ⟨[], by simp⟩⟩

lemma Db.Extends.trans {a b c : Db} (h1 : a.Extends b) (h2 : b.Extends c) : a.Extends c := by
  obtain ⟨⟨d1, hd1⟩, ⟨o1, ho1⟩⟩ := h1
  obtain ⟨⟨d2, hd2⟩, ⟨o2, ho2⟩⟩ := h2
  exact ⟨⟨d1 ++ d2, by rw [hd2, hd1, List.append_assoc]⟩,
         ⟨o1 ++ o2, by rw [ho2, ho1, List.append_assoc]⟩⟩

lemma find?_append_some {α : Type} (p : α → Bool) (l l2 : List α) (x : α)
    (h : l.find? p = some x) : (l ++ l2).find? p = some x := by
  induction l with
  | nil => simp [List.find?] at h
  | cons a l ih =>
    by_cases hp : p a = true
    · rw [List.find?_cons_of_pos _ hp] at h
      rw [List.cons_append, List.find?_cons_of_pos _ hp]
      exact h
    · rw [List.find?_cons_of_neg _ (by simpa using hp)] at h
      rw [List.cons_append, List.find?_cons_of_neg _ (by simpa using hp)]
      exact ih h

lemma find?_append_none {α : Type} (p : α → Bool) (l l2 : List α)
    (h : l.find? p = none) : (l ++ l2).find? p = l2.find? p := by
  induction l with
  | nil => simp
  | cons a l ih =>
    by_cases hp : p a = true
    · rw [List.find?_cons_of_pos _ hp] at h
      simp at h
    · rw [List.find?_cons_of_neg _ (by simpa using hp)] at h
      rw [List.cons_append, List.find?_cons_of_neg _ (by simpa using hp)]
      exact ih h

lemma lookupDir_extends (db db2 : Db) (dn : Str) (par : Option Nat) (row : DirRow)
    (hext : db.Extends db2) (h : lookupDir db dn par = some row) :
    lookupDir db2 dn par = some row := by
  obtain ⟨⟨d, hd⟩, -⟩ := hext
  cases par with
  | some pid =>
    unfold lookupDir Db.getDirByNameAndParent at h ⊢
    rw [hd]
    exact find?_append_some _ _ _ _ h
  | none =>
    unfold lookupDir Db.getRootDirByName at h ⊢
    rw [hd]
    exact find?_append_some _ _ _ _ h

lemma resolveDir_of_found (db : Db) (op : RPath) (dn : Str) (par : Option Nat)
    (row : DirRow) (h : lookupDir db dn par = some row) :
    resolveDir db op dn par = (row, db) := by
  cases par with
  | some pid =>
    unfold lookupDir at h
    dsimp only at h
    unfold resolveDir
    dsimp only
    rw [h]
  | none =>
    unfold lookupDir at h
    dsimp only at h
    unfold resolveDir
    dsimp only
    rw [h]

lemma resolveDir_lookup (db : Db) (op : RPath) (dn : Str) (par : Option Nat) :
    lookupDir (resolveDir db op dn par).2 dn par = some (resolveDir db op dn par).1 := by
  cases par with
  | some pid =>
    unfold resolveDir lookupDir
    dsimp only
    cases hf : db.getDirByNameAndParent dn pid with
    | some d => exact hf
    | none =>
      unfold Db.getDirByNameAndParent at hf ⊢
      unfold Db.insertDir
      dsimp only
      rw [find?_append_none _ _ _ hf]
      simp [List.find?]
  | none =>
    unfold resolveDir lookupDir
    dsimp only
    cases hf : db.getRootDirByName dn with
    | some d => exact hf
    | none =>
      unfold Db.getRootDirByName at hf ⊢
      unfold Db.insertDir
      dsimp only
      rw [find?_append_none _ _ _ hf]
      simp [List.find?]

lemma resolveDir_extends (db : Db) (op : RPath) (dn : Str) (par : Option Nat) :
    db.Extends (resolveDir db op dn par).2 := by
  cases par with
  | some pid =>
    unfold resolveDir
    dsimp only
    cases hf : db.getDirByNameAndParent dn pid
    · exact ⟨⟨_, rfl⟩, ⟨[], by simp [Db.insertDir]⟩⟩
    · exact Db.Extends.rfl db
  | none =>
    unfold resolveDir
    dsimp only
    cases hf : db.getRootDirByName dn
    · exact ⟨⟨_, rfl⟩, ⟨[], by simp [Db.insertDir]⟩⟩
    · exact Db.Extends.rfl db

/-- The catalog row built from a processed pair. -/
def pairRow (pr : Pair) : DocRow := ⟨pr.1.file_name, pr.1.directory, pr.1.path, pr.2⟩

lemma insertPairs_docs_eq : ∀ (pairs : List Pair) (db db' : Db),
    insertPairs pairs db = .ok db' →
      db'.docs = db.docs ++ pairs.map pairRow ∧ db'.dirs = db.dirs := by
  intro pairs
  induction pairs with
  | nil =>
    intro db db' h
    simp [insertPairs] at h
    subst h
    simp
  | cons pr rest ih =>
    intro db db' h
    unfold insertPairs at h
    cases hins : db.insertDoc pr.1 pr.2 with
    | error e => rw [hins] at h; simp at h
    | ok db1 =>
      rw [hins] at h
      obtain ⟨hdocs, hdirs⟩ := ih db1 db' h
      unfold Db.insertDoc at hins
      split at hins
      · simp at hins
      · simp at hins
        constructor
        · rw [hdocs, ← hins]
          simp [pairRow]
        · rw [hdirs, ← hins]

lemma insertPairs_extends (pairs : List Pair) (db db' : Db)
    (h : insertPairs pairs db = .ok db') : db.Extends db' := by
  obtain ⟨hdocs, hdirs⟩ := insertPairs_docs_eq pairs db db' h
  exact ⟨⟨[], by simp [hdirs]⟩, ⟨_, hdocs⟩⟩

mutual
/-- A successful run only appends catalog rows. -/
lemma pd_extends (yaml : Yaml) (mt : Nat) (pp : RPath) (t : FsTree)
    (par : Option Nat) (db db' : Db)
    (h : process_directory yaml mt pp t par db = .ok db') : db.Extends db' := by
  match t with
  | .node nm es =>
    unfold process_directory at h
    cases hdn : decodeUtf8 nm with
    | none => rw [hdn] at h; simp at h
    | some dn =>
      rw [hdn] at h
      simp only at h
      cases hsub : processSubdirs yaml mt (pp ++ [nm])
          (resolveDir db (pp ++ [nm]) dn par).1.id es
          (resolveDir db (pp ++ [nm]) dn par).2 with
      | ok db1 =>
        rw [hsub] at h
        simp only [PRes.bind] at h
        cases hpf : process_files (fun p => .ok p)
            (readEntry yaml (pp ++ [nm]) es) (resolveDir db (pp ++ [nm]) dn par).1.id mt
            (removeExisting
              (db1.listDocumentInDir (resolveDir db (pp ++ [nm]) dn par).1.id
                (selectMd (pp ++ [nm]) es).2)
              (selectMd (pp ++ [nm]) es).1)
            ((removeExisting
              (db1.listDocumentInDir (resolveDir db (pp ++ [nm]) dn par).1.id
                (selectMd (pp ++ [nm]) es).2)
              (selectMd (pp ++ [nm]) es).1).length + 2) with
        | ok pairs =>
          rw [hpf] at h
          simp only [PRes.bind] at h
          exact ((resolveDir_extends db (pp ++ [nm]) dn par).trans
            (ps_extends yaml mt (pp ++ [nm]) _ es _ db1 hsub)).trans
            (insertPairs_extends pairs db1 db' h)
        | error e => rw [hpf] at h; simp [PRes.bind] at h
        | panicked => rw [hpf] at h; simp [PRes.bind] at h
        | fuelOut => rw [hpf] at h; simp [PRes.bind] at h
      | error e => rw [hsub] at h; simp [PRes.bind] at h
      | panicked => rw [hsub] at h; simp [PRes.bind] at h
      | fuelOut => rw [hsub] at h; simp [PRes.bind] at h

/-- Same for the sub-directory loop. -/
lemma ps_extends (yaml : Yaml) (mt : Nat) (op : RPath) (dirId : Nat)
    (es : List FsEntry) (db db' : Db)
    (h : processSubdirs yaml mt op dirId es db = .ok db') : db.Extends db' := by
  match es with
  | [] =>
    simp [processSubdirs] at h
    subst h
    exact Db.Extends.rfl db
  | .file n c :: es =>
    unfold processSubdirs at h
    exact ps_extends yaml mt op dirId es db db' h
  | .dir t :: es =>
    unfold processSubdirs at h
    cases hd : process_directory yaml mt op t (some dirId) db with
    | ok db1 =>
      rw [hd] at h
      simp only [PRes.bind] at h
      exact (pd_extends yaml mt op t (some dirId) db db1 hd).trans
        (ps_extends yaml mt op dirId es db1 db' h)
    | error e => rw [hd] at h; simp [PRes.bind] at h
    | panicked => rw [hd] at h; simp [PRes.bind] at h
    | fuelOut => rw [hd] at h; simp [PRes.bind] at h
end

lemma selectMd_shift (op : RPath) (es : List FsEntry) :
    (selectMd op es).1.length = (selectMd [] es).1.length ∧
    (selectMd op es).2 = (selectMd [] es).2 := by
  induction es with
  | nil => simp [selectMd]
  | cons e es ih =>
    by_cases hmd : hasMdExt e.nameOf = true
    · cases hdec : decodeUtf8 e.nameOf with
      | none => simp [selectMd, hmd, hdec, ih.1, ih.2]
      | some n => simp [selectMd, hmd, hdec, ih.1, ih.2]
    · simp [selectMd, hmd, ih.1, ih.2]

lemma swapRemove_length (l : List RPath) (i : Nat) (h : i < l.length) :
    (swapRemove l i).length = l.length - 1 := by
  rw [(swapRemove_perm l i h).length_eq]
  rw [List.length_eraseIdx]
  simp [h]

lemma removeExisting_length_le :
    ∀ (docs : List DocRow) (md : List RPath),
      (removeExisting docs md).length ≤ md.length := by
  intro docs
  induction docs with
  | nil => intro md; simp [removeExisting]
  | cons d rest ih =>
    intro md
    unfold removeExisting
    cases hmp : matchPos d.file_name md with
    | none => exact ih md
    | some i =>
      obtain ⟨hi, -⟩ := matchPos_some _ md i hmp
      calc (removeExisting rest (swapRemove md i)).length
          ≤ (swapRemove md i).length := ih _
        _ ≤ md.length := by rw [swapRemove_length md i hi]; omega

lemma removeExisting_append (d1 d2 : List DocRow) (md : List RPath) :
    removeExisting (d1 ++ d2) md = removeExisting d2 (removeExisting d1 md) := by
  induction d1 generalizing md with
  | nil => simp [removeExisting]
  | cons d rest ih =>
    rw [List.cons_append]
    simp only [removeExisting]
    cases hmp : matchPos d.file_name md with
    | none => exact ih md
    | some i => exact ih (swapRemove md i)

lemma removeExisting_nil_md : ∀ docs : List DocRow, removeExisting docs [] = [] := by
  intro docs
  induction docs with
  | nil => rfl
  | cons d rest ih =>
    simp only [removeExisting, matchPos]
    exact ih

lemma listDocumentInDir_extends (db db2 : Db) (o : List DocRow)
    (h : db2.docs = db.docs ++ o) (rid : Nat) (names : List Str) :
    db2.listDocumentInDir rid names =
      db.listDocumentInDir rid names ++
        o.filter (fun d => d.directory = rid ∧ d.file_name ∈ names) := by
  unfold Db.listDocumentInDir
  rw [h, List.filter_append]

mutual
/-- Settledness survives appending rows to the catalog. -/
lemma settled_mono (db db2 : Db) (pp : RPath) (t : FsTree) (par : Option Nat)
    (hext : db.Extends db2) (hs : Settled db pp t par) : Settled db2 pp t par := by
  match t with
  | .node nm es =>
    unfold Settled at hs ⊢
    obtain ⟨dn, hdn, row, hrow, hses, hre⟩ := hs
    refine ⟨dn, hdn, row, lookupDir_extends db db2 dn par row hext hrow,
      settledEntries_mono db db2 (pp ++ [nm]) es row.id hext hses, ?_⟩
    obtain ⟨-, o, ho⟩ := hext
    rw [listDocumentInDir_extends db db2 o ho, removeExisting_append, hre]
    exact removeExisting_nil_md _

/-- `settled_mono` over an entry list. -/
lemma settledEntries_mono (db db2 : Db) (op : RPath) (es : List FsEntry) (dirId : Nat)
    (hext : db.Extends db2) (hs : SettledEntries db op es dirId) :
    SettledEntries db2 op es dirId := by
  match es with
  | [] => trivial
  | .file n c :: es =>
    unfold SettledEntries at hs ⊢
    exact settledEntries_mono db db2 op es dirId hext hs
  | .dir t :: es =>
    unfold SettledEntries at hs ⊢
    exact ⟨settled_mono db db2 op t (some dirId) hext hs.1,
           settledEntries_mono db db2 op es dirId hext hs.2⟩
end

lemma findEntry_spec (op p : RPath) :
    ∀ es : List FsEntry, (∃ e ∈ es, op ++ [e.nameOf] = p) →
      ∃ e', es.findSome? (fun e => if op ++ [e.nameOf] = p then some e else none) = some e' ∧
        e' ∈ es ∧ op ++ [e'.nameOf] = p := by
  intro es
  induction es with
  | nil =>
    rintro ⟨e, he, -⟩
    simp at he
  | cons a es ih =>
    rintro ⟨e, he, hp⟩
    by_cases ha : op ++ [a.nameOf] = p
    · exact ⟨a, by simp [List.findSome?_cons, ha], List.mem_cons_self _ _, ha⟩
    · have hmem : e ∈ es := by
        rcases List.mem_cons.mp he with rfl | h2
        · exact absurd hp ha
        · exact h2
      obtain ⟨e', hfind, hmem', hp'⟩ := ih ⟨e, hmem, hp⟩
      exact ⟨e', by simp [List.findSome?_cons, ha, hfind],
             List.mem_cons_of_mem _ hmem', hp'⟩

lemma entriesGood_mem (yaml : Yaml) (mt : Nat) :
    ∀ (es : List FsEntry) (e : FsEntry), entriesGood yaml mt es = true → e ∈ es →
      entryGood yaml mt e = true := by
  intro es
  induction es with
  | nil =>
    intro e h hmem
    simp at hmem
  | cons a es ih =>
    intro e h hmem
    unfold entriesGood at h
    rw [Bool.and_eq_true] at h
    rcases List.mem_cons.mp hmem with rfl | h2
    · exact h.1
    · exact ih e h.2 h2

/-- On a good entry list, reading any collected `md` path succeeds and
its file name decodes. -/
lemma readEntry_ok (yaml : Yaml) (mt : Nat) (op : RPath) (es : List FsEntry) (p : RPath)
    (hg : entriesGood yaml mt es = true) (hp : p ∈ (selectMd op es).1) :
    (∃ m, readEntry yaml op es p = .ok m) ∧ (pathName p).isSome = true := by
  obtain ⟨e, he, rfl, hmd⟩ := (selectMd_paths_iff op es p).mp hp
  obtain ⟨e', hfind, hmem', hp'⟩ := findEntry_spec op (op ++ [e.nameOf]) es ⟨e, he, rfl⟩
  have hnm : e'.nameOf = e.nameOf := by
    have h2 := List.append_cancel_left hp'
    simpa using h2
  have hmd' : hasMdExt e'.nameOf = true := by rw [hnm]; exact hmd
  have hgood := entriesGood_mem yaml mt es e' hg hmem'
  match e', hgood, hmd', hnm, hfind with
  | .dir t, hgood, hmd', hnm, hfind =>
    unfold entryGood at hgood
    rw [Bool.and_eq_true] at hgood
    exact absurd hmd' (by simpa [FsEntry.nameOf] using hgood.1)
  | .file nb c, hgood, hmd', hnm, hfind =>
    unfold entryGood at hgood
    rw [show FsEntry.nameOf (.file nb c) = nb from rfl] at hmd' hnm
    rw [if_pos hmd'] at hgood
    rw [Bool.and_eq_true] at hgood
    obtain ⟨hdec, hread⟩ := hgood
    constructor
    · unfold readEntry
      rw [hfind]
      cases hr : read_from_str yaml c with
      | ok r => exact ⟨r.1, by simp [PRes.bind, hr]⟩
      | error e2 => rw [hr] at hread; simp at hread
      | panicked => rw [hr] at hread; simp at hread
      | fuelOut => rw [hr] at hread; simp at hread
    · rw [show pathName (op ++ [e.nameOf]) = decodeUtf8 e.nameOf from by
        simp [pathName, List.getLast?_concat]]
      rw [← hnm]
      exact hdec

/-- The parsed metadata of a path, as a total function. -/
def metaFOf (yaml : Yaml) (op : RPath) (es : List FsEntry) : RPath → DocumentMeta :=
  fun p =>
    match readEntry yaml op es p with
    | .ok m => m
    | _ => ({} : DocumentMeta)

lemma readEntry_metaFOf (yaml : Yaml) (op : RPath) (es : List FsEntry) (p : RPath)
    (h : ∃ m, readEntry yaml op es p = .ok m) :
    readEntry yaml op es p = .ok (metaFOf yaml op es p) := by
  obtain ⟨m, hm⟩ := h
  simp [metaFOf, hm]

lemma documentName_of_pathName (p : RPath) (n : Str) (h : pathName p = some n) :
    documentName p = n := by
  unfold pathName at h
  unfold documentName
  cases hl : p.getLast? with
  | none => rw [hl] at h; simp at h
  | some os =>
    rw [hl] at h
    dsimp only at h
    simp [h]

lemma nameMatches_iff (n : Str) (p : RPath) :
    nameMatches n p = true ↔ pathName p = some n := by
  unfold nameMatches
  cases pathName p <;> simp

lemma matchPos_none (name : Str) :
    ∀ md : List RPath, matchPos name md = none → ∀ p ∈ md, nameMatches name p = false := by
  intro md
  induction md with
  | nil =>
    intro h p hp
    simp at hp
  | cons q ps ih =>
    intro h p hp
    unfold matchPos at h
    by_cases hm : nameMatches name q = true
    · rw [if_pos hm] at h
      simp at h
    · rw [if_neg hm] at h
      rcases List.mem_cons.mp hp with rfl | h2
      · exact Bool.not_eq_true _ |>.mp hm
      · refine ih ?_ p h2
        simpa using h

lemma countP_eraseIdx (f : RPath → Bool) :
    ∀ (l : List RPath) (i : Nat) (hi : i < l.length),
      l.countP f = (l.eraseIdx i).countP f +
        (if f (l.get ⟨i, hi⟩) then 1 else 0) := by
  intro l
  induction l with
  | nil =>
    intro i hi
    simp at hi
  | cons a l ih =>
    intro i hi
    cases i with
    | zero =>
      rw [List.eraseIdx_cons_zero, List.countP_cons]
      simp [List.get]
    | succ i =>
      have hi' : i < l.length := by simpa using hi
      rw [List.eraseIdx_cons_succ, List.countP_cons, List.countP_cons, ih i hi']
      simp [List.get]
      omega

/-- The reconciliation loop empties the work list whenever the catalog
reply holds, name for name, at least as many rows as there are paths. -/
lemma removeExisting_eq_nil :
    ∀ (docs : List DocRow) (md : List RPath),
      (∀ p ∈ md, (pathName p).isSome = true) →
      (∀ n : Str, md.countP (fun p => nameMatches n p) ≤
        docs.countP (fun d => d.file_name = n)) →
      removeExisting docs md = [] := by
  intro docs
  induction docs with
  | nil =>
    intro md hdec hcount
    match md, hdec, hcount with
    | [], _, _ => rfl
    | p :: ps, hdec, hcount =>
      have hs := hdec p (List.mem_cons_self p ps)
      obtain ⟨n, hn⟩ := Option.isSome_iff_exists.mp hs
      have hmatch : nameMatches n p = true := (nameMatches_iff n p).mpr hn
      have h1 := hcount n
      rw [List.countP_cons] at h1
      simp [hmatch] at h1
  | cons d rest ih =>
    intro md hdec hcount
    unfold removeExisting
    cases hmp : matchPos d.file_name md with
    | none =>
      apply ih md hdec
      intro n
      by_cases hn : d.file_name = n
      · subst hn
        have h0 : md.countP (fun p => nameMatches d.file_name p) = 0 := by
          rw [List.countP_eq_zero]
          intro p hp
          simp [matchPos_none d.file_name md hmp p hp]
        rw [h0]
        exact Nat.zero_le _
      · have h1 := hcount n
        rw [List.countP_cons] at h1
        simpa [hn] using h1
    | some i =>
      obtain ⟨hi, hmatch⟩ := matchPos_some _ md i hmp
      apply ih (swapRemove md i)
      · intro p hp
        have hmem := (swapRemove_perm md i hi).mem_iff.mp hp
        exact hdec p ((List.eraseIdx_sublist md i).mem hmem)
      · intro n
        rw [(swapRemove_perm md i hi).countP_eq (fun p => nameMatches n p)]
        have hcnt := countP_eraseIdx (fun p => nameMatches n p) md i hi
        have h1 := hcount n
        rw [List.countP_cons] at h1
        by_cases hcase : nameMatches n (md.get ⟨i, hi⟩) = true
        · have hn1 := (nameMatches_iff _ _).mp hcase
          have hn2 := (nameMatches_iff _ _).mp hmatch
          have hfn : d.file_name = n := by
            rw [hn1] at hn2
            exact ((Option.some.injEq _ _).mp hn2).symm
          rw [if_pos hcase] at hcnt
          simp [hfn] at h1
          omega
        · have hfn : ¬ d.file_name = n := by
            intro hfn
            subst hfn
            exact hcase hmatch
          rw [if_neg hcase] at hcnt
          simp [hfn] at h1
          omega

lemma countP_le_of_imp (p q : RPath → Bool) :
    ∀ l : List RPath, (∀ a ∈ l, p a = true → q a = true) →
      l.countP p ≤ l.countP q := by
  intro l
  induction l with
  | nil =>
    intro h
    simp
  | cons a l ih =>
    intro h
    rw [List.countP_cons, List.countP_cons]
    have h1 := ih (fun b hb => h b (List.mem_cons_of_mem a hb))
    by_cases hp : p a = true
    · rw [if_pos hp, if_pos (h a (List.mem_cons_self a l) hp)]
      omega
    · rw [if_neg hp]
      split <;> omega

mutual
/-- After a successful run over a good tree, the resulting catalog is
settled for that tree. -/
lemma run_settles (yaml : Yaml) (mt : Nat) (pp : RPath) (t : FsTree)
    (par : Option Nat) (db db' : Db)
    (hg : treeGood yaml mt t = true)
    (h : process_directory yaml mt pp t par db = .ok db') : Settled db' pp t par := by
  match t with
  | .node nm es =>
    unfold treeGood at hg
    rw [Bool.and_eq_true] at hg
    have hbound := of_decide_eq_true hg.1
    have hge := hg.2
    unfold process_directory at h
    cases hdn : decodeUtf8 nm with
    | none => rw [hdn] at h; simp at h
    | some dn =>
      rw [hdn] at h
      simp only at h
      set ownPath := pp ++ [nm] with hop
      set rdb := resolveDir db ownPath dn par with hrdb
      set sel := selectMd ownPath es with hsel
      cases hsub : processSubdirs yaml mt ownPath rdb.1.id es rdb.2 with
      | ok db1 =>
        rw [hsub] at h
        simp only [PRes.bind] at h
        set existing := db1.listDocumentInDir rdb.1.id sel.2 with hex
        set mdFiles := removeExisting existing sel.1 with hmdf
        cases hpf : process_files (fun p => .ok p) (readEntry yaml ownPath es) rdb.1.id mt
            mdFiles (mdFiles.length + 2) with
        | ok pairs =>
          rw [hpf] at h
          simp only [PRes.bind] at h
          have hext1 : rdb.2.Extends db1 :=
            ps_extends yaml mt ownPath rdb.1.id es rdb.2 db1 hsub
          have hext2 : db1.Extends db' := insertPairs_extends pairs db1 db' h
          have hdecs : ∀ p ∈ mdFiles, (pathName p).isSome = true := by
            intro p hp
            have hmem : p ∈ sel.1 := removeExisting_subset p existing sel.1 hp
            exact (readEntry_ok yaml mt ownPath es p hge hmem).2
          have hreads : ∀ p ∈ mdFiles,
              readEntry yaml ownPath es p = .ok (metaFOf yaml ownPath es p) := by
            intro p hp
            have hmem : p ∈ sel.1 := removeExisting_subset p existing sel.1 hp
            exact readEntry_metaFOf yaml ownPath es p
              (readEntry_ok yaml mt ownPath es p hge hmem).1
          have hbound2 : mdFiles.length ≤ mt * FILES_PER_THREAD := by
            have h1 : mdFiles.length ≤ sel.1.length :=
              removeExisting_length_le existing sel.1
            have h2 : sel.1.length = (selectMd [] es).1.length := (selectMd_shift ownPath es).1
            omega
          have hpf2 := pf_small_ok (fun p => .ok p) (readEntry yaml ownPath es) rdb.1.id mt
            mdFiles (metaFOf yaml ownPath es) (mdFiles.length + 2) hbound2 (by omega)
            (fun p hp => rfl) hreads
          rw [hpf] at hpf2
          injection hpf2 with hpairs
          subst hpairs
          obtain ⟨hdocs, -⟩ := insertPairs_docs_eq _ db1 db' h
          have hnew : ((mdFiles.map (pairOf (metaFOf yaml ownPath es) rdb.1.id)).map pairRow) =
              mdFiles.map (fun p =>
                (⟨documentName p, rdb.1.id, p, metaFOf yaml ownPath es p⟩ : DocRow)) := by
            rw [List.map_map]
            rfl
          have hlk : lookupDir db' dn par = some rdb.1 :=
            lookupDir_extends rdb.2 db' dn par rdb.1 (hext1.trans hext2)
              (resolveDir_lookup db ownPath dn par)
          have hse : SettledEntries db' ownPath es rdb.1.id :=
            settledEntries_mono db1 db' ownPath es rdb.1.id hext2
              (runs_settle yaml mt ownPath rdb.1.id es rdb.2 db1 hge hsub)
          have hkeep : ∀ r ∈ mdFiles.map (fun p =>
                (⟨documentName p, rdb.1.id, p, metaFOf yaml ownPath es p⟩ : DocRow)),
              (decide (r.directory = rdb.1.id ∧ r.file_name ∈ sel.2)) = true := by
            intro r hr
            obtain ⟨p, hp, rfl⟩ := List.mem_map.mp hr
            have hmem2 : documentName p ∈ sel.2 := by
              obtain ⟨n, hn⟩ := Option.isSome_iff_exists.mp (hdecs p hp)
              rw [documentName_of_pathName p n hn]
              rw [show sel.2 = sel.1.filterMap pathName from selectMd_names_eq ownPath es]
              exact List.mem_filterMap.mpr ⟨p, removeExisting_subset p existing sel.1 hp, hn⟩
            exact decide_eq_true ⟨rfl, hmem2⟩
          have hre : removeExisting (db'.listDocumentInDir rdb.1.id sel.2) sel.1 = [] := by
            rw [listDocumentInDir_extends db1 db'
              (mdFiles.map (fun p =>
                (⟨documentName p, rdb.1.id, p, metaFOf yaml ownPath es p⟩ : DocRow)))
              (by rw [hdocs, hnew]) rdb.1.id sel.2]
            rw [List.filter_eq_self.mpr hkeep]
            rw [removeExisting_append]
            show removeExisting _ mdFiles = []
            apply removeExisting_eq_nil _ _ hdecs
            intro n
            rw [List.countP_map]
            apply countP_le_of_imp
            intro p hp hnm
            have hpn := (nameMatches_iff n p).mp hnm
            simp only [Function.comp]
            exact decide_eq_true (documentName_of_pathName p n hpn)
          unfold Settled
          exact ⟨dn, hdn, rdb.1, hlk, hse, hre⟩
        | error e2 => rw [hpf] at h; simp [PRes.bind] at h
        | panicked => rw [hpf] at h; simp [PRes.bind] at h
        | fuelOut => rw [hpf] at h; simp [PRes.bind] at h
      | error e2 => rw [hsub] at h; simp [PRes.bind] at h
      | panicked => rw [hsub] at h; simp [PRes.bind] at h
      | fuelOut => rw [hsub] at h; simp [PRes.bind] at h

/-- `run_settles` over the sub-directory loop. -/
lemma runs_settle (yaml : Yaml) (mt : Nat) (op : RPath) (dirId : Nat)
    (es : List FsEntry) (db db' : Db)
    (hg : entriesGood yaml mt es = true)
    (h : processSubdirs yaml mt op dirId es db = .ok db') :
    SettledEntries db' op es dirId := by
  match es with
  | [] => trivial
  | .file n c :: es =>
    unfold processSubdirs at h
    unfold entriesGood at hg
    rw [Bool.and_eq_true] at hg
    unfold SettledEntries
    exact runs_settle yaml mt op dirId es db db' hg.2 h
  | .dir t :: es =>
    unfold processSubdirs at h
    unfold entriesGood at hg
    rw [Bool.and_eq_true] at hg
    have hgt : treeGood yaml mt t = true := by
      have h2 := hg.1
      unfold entryGood at h2
      rw [Bool.and_eq_true] at h2
      exact h2.2
    cases hd : process_directory yaml mt op t (some dirId) db with
    | ok db1 =>
      rw [hd] at h
      simp only [PRes.bind] at h
      have hs1 := run_settles yaml mt op t (some dirId) db db1 hgt hd
      have hrest := runs_settle yaml mt op dirId es db1 db' hg.2 h
      have hext := ps_extends yaml mt op dirId es db1 db' h
      unfold SettledEntries
      exact ⟨settled_mono db1 db' op t (some dirId) hext hs1, hrest⟩
    | error e2 => rw [hd] at h; simp [PRes.bind] at h
    | panicked => rw [hd] at h; simp [PRes.bind] at h
    | fuelOut => rw [hd] at h; simp [PRes.bind] at h
end

mutual
/-- A run over a settled catalog is a no-op: every directory resolves by
lookup, the diff leaves nothing to process, and the catalog — insert
counters included — comes back unchanged. -/
lemma settled_noop (yaml : Yaml) (mt : Nat) (pp : RPath) (t : FsTree)
    (par : Option Nat) (db : Db) (hs : Settled db pp t par) :
    process_directory yaml mt pp t par db = .ok db := by
  match t with
  | .node nm es =>
    unfold Settled at hs
    obtain ⟨dn, hdn, row, hrow, hses, hre⟩ := hs
    unfold process_directory
    rw [hdn]
    dsimp only
    rw [resolveDir_of_found db (pp ++ [nm]) dn par row hrow]
    dsimp only
    rw [settledEntries_noop yaml mt (pp ++ [nm]) row.id es db hses]
    simp only [PRes.bind]
    rw [hre]
    rfl

/-- `settled_noop` over the sub-directory loop. -/
lemma settledEntries_noop (yaml : Yaml) (mt : Nat) (op : RPath) (dirId : Nat)
    (es : List FsEntry) (db : Db) (hs : SettledEntries db op es dirId) :
    processSubdirs yaml mt op dirId es db = .ok db := by
  match es with
  | [] => rfl
  | .file n c :: es =>
    unfold SettledEntries at hs
    unfold processSubdirs
    exact settledEntries_noop yaml mt op dirId es db hs
  | .dir t :: es =>
    unfold SettledEntries at hs
    unfold processSubdirs
    rw [settled_noop yaml mt op t (some dirId) db hs.1]
    simp only [PRes.bind]
    exact settledEntries_noop yaml mt op dirId es db hs.2
end

/-- A root directory `n` holding the single markdown file `\xFF.md` (the
file name is not valid UTF-8) with parseable content. -/
def badTree : FsTree := .node [110] [.file [255, 46, 109, 100] (chars "x")]

/-- A root directory `n` holding the single markdown file `a.md` with
parseable content. -/
def goodTree : FsTree := .node [110] [.file [97, 46, 109, 100] (chars "hello")]

/-- The catalog one run over `badTree` produces: the root row and the
`__unknown` document row. -/
def badDb1 : Db :=
  ⟨[⟨0, chars "n", none, [[110]]⟩],
   [⟨chars "__unknown", 0, [[110], [255, 46, 109, 100]], {}⟩], 1, 1, 1⟩

/-- The catalog one run over `goodTree` produces. -/
def goodDb1 : Db :=
  ⟨[⟨0, chars "n", none, [[110]]⟩],
   [⟨chars "a.md", 0, [[110], [97, 46, 109, 100]], {}⟩], 1, 1, 1⟩

/-- C2 (amended): ingestion is idempotent on well-formed trees — when
every `md`-extension entry is a regular file whose name is valid UTF-8
and whose front matter the parser accepts, no directory name carries the
`md` extension, and each directory holds at most
`MAX_THREADS * FILES_PER_THREAD` markdown entries (one batching round),
a second run of `process_directory` from the catalog state a successful
first run produced returns exactly that state; the insert counters are
part of the state, so the second pass performs zero insert-directory and
zero insert-document operations.  The unrestricted claim is false: an
`md` entry with a non-UTF-8 name is diffed by a name that never matches
and re-submitted on every run (see the counterexample). -/
theorem c2_idempotent (yaml : Yaml) (mt : Nat) (pp : RPath) (t : FsTree)
    (par : Option Nat) (db db' : Db)
    (hgood : treeGood yaml mt t = true)
    (h1 : process_directory yaml mt pp t par db = .ok db') :
    process_directory yaml mt pp t par db' = .ok db' :=
  settled_noop yaml mt pp t par db' (run_settles yaml mt pp t par db db' hgood h1)

/-- C2 counterexample: over a root holding the single file `\xFF.md`
(extension `md`, name not valid UTF-8) the first run succeeds, but the
second run re-submits the file under the sentinel name `__unknown` and is
rejected by the (directory, file_name) uniqueness of insert-document —
ingestion is not idempotent, and the second pass performs a document
insertion rather than zero. -/
theorem c2_counterexample :
    process_directory yamlStub 1 [] badTree none Db.empty = .ok badDb1 ∧
    process_directory yamlStub 1 [] badTree none badDb1 = .error .duplicate := by
  decide

/-- C2 witness: a root holding the single well-formed file `a.md` is good,
its first run produces a catalog, and the amended theorem returns that
catalog unchanged on the second run. -/
theorem c2_witness :
    treeGood yamlStub 1 goodTree = true ∧
    process_directory yamlStub 1 [] goodTree none Db.empty = .ok goodDb1 ∧
    process_directory yamlStub 1 [] goodTree none goodDb1 = .ok goodDb1 :=
  ⟨by decide, by decide,
   c2_idempotent yamlStub 1 [] goodTree none Db.empty goodDb1 (by decide) (by decide)⟩

end Knawledger
